import Mathlib

/-!
Verification development for the device-classifier repository.

The definitions below are a shallow embedding of the TypeScript source:
the path utilities of `src/lib/fileTree.ts`, and the device ownership,
conflict-planning, merging, hidden-folder and export logic of the main
application component.  JavaScript strings are modelled by `String`,
arrays by `List`, `Set` by insertion-ordered duplicate-free lists
(`jsDedup` / `insertUnique`), `Map` by insertion-ordered association
lists, and `localeCompare`-ascending sorting by code-point ascending
sorting (`List.insertionSort strLe`).
-/

namespace DeviceClassifier

/-- Whitespace test modelling the characters removed by JavaScript
`String.prototype.trim` (restricted to the ASCII whitespace range). -/
def isJsWS (c : Char) : Bool :=
  c = ' ' || c = '\t' || c = '\n' || c = '\r' || c = '\x0b' || c = '\x0c'

/-- Character-list version of JavaScript `trim`: drop leading whitespace,
then drop trailing whitespace. -/
def jsTrimChars (l : List Char) : List Char :=
  ((l.dropWhile isJsWS).reverse.dropWhile isJsWS).reverse

/-- Model of JavaScript `value.trim()`. -/
def jsTrim (s : String) : String := ⟨jsTrimChars s.data⟩

/-- Character-list splitter modelling JavaScript `String.prototype.split`
with a single-character separator (keeps empty pieces, `"".split` gives
one empty piece). -/
def splitCharAux (sep : Char) : List Char → List (List Char)
  | [] => [[]]
  | c :: rest =>
    match splitCharAux sep rest with
    | [] => [[]]
    | h :: t => if c = sep then [] :: h :: t else (c :: h) :: t

/-- Model of JavaScript `s.split(sep)` for a one-character separator. -/
def jsSplit (sep : Char) (s : String) : List String :=
  (splitCharAux sep s.data).map (fun l => ⟨l⟩)

/-- Replace a backslash by a slash, as in `replace(/\\/g, '/')`. -/
def bsToSlash (c : Char) : Char := if c = '\\' then '/' else c

/-- Collapse runs of slashes to a single slash, as in `replace(/\/+/g, '/')`. -/
def collapseSlashes : List Char → List Char
  | [] => []
  | [c] => [c]
  | a :: b :: rest =>
    if a = '/' && b = '/' then collapseSlashes (b :: rest)
    else a :: collapseSlashes (b :: rest)

/-- Model of `normalizePath` from `fileTree.ts`:
`value.trim().replace(/\\/g, '/').replace(/\/+/g, '/')`. -/
def normalizePath (s : String) : String :=
  ⟨collapseSlashes ((jsTrim s).data.map bsToSlash)⟩

/-- Model of `stripRootPrefix` from `fileTree.ts`: drop a leading
`"root"` segment. -/
def stripRootSegment : List String → List String
  | "root" :: rest => rest
  | segs => segs

/-- Model of `toComparableSegments` from `fileTree.ts`: normalize, split
on `/`, trim each segment, keep the non-empty ones, drop a leading
`root` segment. -/
def toComparableSegments (value : String) : List String :=
  stripRootSegment (((jsSplit '/' (normalizePath value)).map jsTrim).filter
    (fun s => decide (s ≠ "")))

/-- The four possible path relations of `fileTree.ts`. -/
inductive PathRelation where
  | same
  | ancestor
  | descendant
  | disjoint
deriving DecidableEq, Repr

/-- Pairwise segment mismatch up to the shorter length, as in the loop
of `getPathRelation`. -/
def SegMismatch (xs ys : List String) : Prop :=
  ∃ pr ∈ List.zip xs ys, pr.1 ≠ pr.2

instance (xs ys : List String) : Decidable (SegMismatch xs ys) :=
  inferInstanceAs (Decidable (∃ pr ∈ _, _))

/-- Core of `getPathRelation`, on already-computed comparable segments. -/
def relOfSegs (xs ys : List String) : PathRelation :=
  if xs = [] ∨ ys = [] then .disjoint
  else if SegMismatch xs ys then .disjoint
  else if xs.length = ys.length then .same
  else if xs.length < ys.length then .ancestor
  else .descendant

/-- Model of `getPathRelation` from `fileTree.ts`. -/
def getPathRelation (a b : String) : PathRelation :=
  relOfSegs (toComparableSegments a) (toComparableSegments b)

/-- Depth as computed inside `computeOwnerDevice`:
`d.split('/').filter(Boolean).length` on the raw device-path string (no
normalization, the root segment counts). -/
def rawSegmentDepth (d : String) : Nat :=
  ((jsSplit '/' d).filter (fun s => decide (s ≠ ""))).length

/-- Depth in the sense of the specification's Ownership Resolver wording:
the number of non-empty segments after stripping the root segment. -/
def specFolderDepth (d : String) : Nat :=
  (toComparableSegments d).length

/-- A device qualifies as an owner candidate for a point when its
relation to the point path is `ancestor` or `same`. -/
def Qualifies (pointPath d : String) : Prop :=
  getPathRelation d pointPath = .ancestor ∨ getPathRelation d pointPath = .same

instance (pointPath d : String) : Decidable (Qualifies pointPath d) :=
  decidable_of_iff
    (getPathRelation d pointPath = .ancestor ∨ getPathRelation d pointPath = .same)
    Iff.rfl

/-- One iteration of the loop of `computeOwnerDevice`: skip
non-qualifying devices, otherwise keep the current best unless the new
depth is strictly greater. -/
def ownerStep (pointPath : String) (best : Option (String × Nat)) (d : String) :
    Option (String × Nat) :=
  if getPathRelation d pointPath ≠ .ancestor ∧ getPathRelation d pointPath ≠ .same then
    best
  else
    match best with
    | none => some (d, rawSegmentDepth d)
    | some (bp, bd) =>
      if rawSegmentDepth d > bd then some (d, rawSegmentDepth d) else some (bp, bd)

/-- Model of `computeOwnerDevice` from the application component. -/
def computeOwnerDevice (pointPath : String) (devices : List String) : Option String :=
  (devices.foldl (ownerStep pointPath) none).map Prod.fst

/-- JavaScript `Set.add` on an insertion-ordered duplicate-free list. -/
def insertUnique (l : List String) (x : String) : List String :=
  if x ∈ l then l else l ++ [x]

/-- Model of `Array.from(new Set(l))`: deduplicate keeping first
occurrences in order. -/
def jsDedup (l : List String) : List String :=
  l.foldl insertUnique []

/-- Lexicographic code-point comparison of character lists (`≤`). -/
def lexLeb : List Char → List Char → Bool
  | [], _ => true
  | _ :: _, [] => false
  | a :: as, b :: bs =>
    if a.toNat = b.toNat then lexLeb as bs else decide (a.toNat < b.toNat)

/-- Ascending string order modelling `a.localeCompare(b) <= 0` by
code-point comparison. -/
def strLe (a b : String) : Prop := lexLeb a.data b.data = true

instance : DecidableRel strLe :=
  fun _ _ => inferInstanceAs (Decidable (_ = true))

instance : IsTotal String strLe := ⟨by
  intro a b
  unfold strLe
  generalize a.data = l₁
  generalize b.data = l₂
  induction l₁ generalizing l₂ with
  | nil => left; rfl
  | cons x xs ih =>
    cases l₂ with
    | nil => right; rfl
    | cons y ys =>
      unfold lexLeb
      by_cases hxy : x.toNat = y.toNat
      · rw [if_pos hxy, if_pos hxy.symm]
        exact ih ys
      · rw [if_neg hxy, if_neg (fun h => hxy h.symm)]
        rcases Nat.lt_or_ge x.toNat y.toNat with h | h
        · left; exact decide_eq_true h
        · right; exact decide_eq_true (by omega)⟩

instance : IsTrans String strLe := ⟨by
  intro a b c
  unfold strLe
  generalize a.data = l₁
  generalize b.data = l₂
  generalize c.data = l₃
  induction l₁ generalizing l₂ l₃ with
  | nil => intro _ _; rfl
  | cons x xs ih =>
    intro h1 h2
    cases l₂ with
    | nil => simp [lexLeb] at h1
    | cons y ys =>
      cases l₃ with
      | nil => simp [lexLeb] at h2
      | cons z zs =>
        unfold lexLeb at h1 h2 ⊢
        by_cases hxy : x.toNat = y.toNat <;> by_cases hyz : y.toNat = z.toNat
        · rw [if_pos hxy] at h1
          rw [if_pos hyz] at h2
          rw [if_pos (hxy.trans hyz)]
          exact ih ys zs h1 h2
        · rw [if_pos hxy] at h1
          rw [if_neg hyz] at h2
          have hlt := of_decide_eq_true h2
          rw [if_neg (by omega)]
          exact decide_eq_true (by omega)
        · rw [if_neg hxy] at h1
          rw [if_pos hyz] at h2
          have hlt := of_decide_eq_true h1
          rw [if_neg (by omega)]
          exact decide_eq_true (by omega)
        · rw [if_neg hxy] at h1
          rw [if_neg hyz] at h2
          have hlt1 := of_decide_eq_true h1
          have hlt2 := of_decide_eq_true h2
          rw [if_neg (by omega)]
          exact decide_eq_true (by omega)⟩

/-- Ascending sort of strings, modelling
`sort((a, b) => a.localeCompare(b))` by code-point order. -/
def sortStrings (l : List String) : List String :=
  l.insertionSort strLe

/-- Model of `isAtOrDownstreamOfAnyFolderPath` from `fileTree.ts`. -/
def isAtOrDownstreamOfAnyFolderPath (path : String) (ancestorPaths : List String) : Bool :=
  if (toComparableSegments path).isEmpty then false
  else
    ancestorPaths.any (fun a =>
      !(toComparableSegments a).isEmpty
        && decide ((toComparableSegments a).length ≤ (toComparableSegments path).length)
        && decide ((toComparableSegments path).take (toComparableSegments a).length
            = toComparableSegments a))

/-- Numeric value of a hexadecimal digit character. -/
def hexDigitVal (c : Char) : Nat :=
  if '0' ≤ c ∧ c ≤ '9' then c.toNat - '0'.toNat
  else if 'a' ≤ c ∧ c ≤ 'f' then c.toNat - 'a'.toNat + 10
  else if 'A' ≤ c ∧ c ≤ 'F' then c.toNat - 'A'.toNat + 10
  else 0

/-- Hexadecimal digit test, `[0-9a-fA-F]`. -/
def isHexDigit (c : Char) : Bool :=
  decide (('0' ≤ c ∧ c ≤ '9') ∨ ('a' ≤ c ∧ c ≤ 'f') ∨ ('A' ≤ c ∧ c ≤ 'F'))

/-- Character-level model of the global regex replacement
`value.replace(/\$([0-9a-fA-F]{2})/g, hexToChar)`: a `$` followed by two
hex digits becomes the character with that code; on a failed match the
scan advances one character. -/
def decodeChars : List Char → List Char
  | [] => []
  | '$' :: a :: b :: rest =>
    if isHexDigit a && isHexDigit b then
      Char.ofNat (16 * hexDigitVal a + hexDigitVal b) :: decodeChars rest
    else '$' :: decodeChars (a :: b :: rest)
  | c :: rest => c :: decodeChars rest

/-- Model of `decodeStandardName` from `fileTree.ts`. -/
def decodeStandardName (value : String) : String := ⟨decodeChars value.data⟩

/-- Model of `displayDevicePath`: strip a leading `"root/"`. -/
def displayDevicePath (p : String) : String :=
  if p.data.take 5 = ("root/").data then ⟨p.data.drop 5⟩ else p

/-- A merged device: opaque id, user-chosen name, member folder paths. -/
structure MergedDevice where
  id : String
  name : String
  memberPaths : List String
deriving DecidableEq, Repr

/-- Model of the `mergedNameByPath` memo: iterate the merged devices in
order, skip those whose trimmed name is empty, let later groups
overwrite earlier ones (a JavaScript `Map.set`). -/
def mergedNameByPath (mds : List MergedDevice) (p : String) : Option String :=
  mds.foldl (fun acc md =>
    if jsTrim md.name = "" then acc
    else if p ∈ md.memberPaths then some (jsTrim md.name) else acc) none

/-- Lookup in a `Record<string, string>`, modelled as an association
list with unique keys. -/
def lookupRecord (m : List (String × String)) (k : String) : Option String :=
  (m.find? (fun kv => decide (kv.1 = k))).map Prod.snd

/-- Decoded leaf segment of the displayed device path, the final
fallback of `displayDeviceName`. -/
def leafDisplayName (p : String) : String :=
  let shown := displayDevicePath p
  decodeStandardName ((jsSplit '/' shown).getLastD shown)

/-- The manual-override-or-leaf part of `displayDeviceName`. -/
def overrideOrLeafName (overrides : List (String × String)) (p : String) : String :=
  match lookupRecord overrides p with
  | some ov => if jsTrim ov ≠ "" then jsTrim ov else leafDisplayName p
  | none => leafDisplayName p

/-- Model of `displayDeviceName`: merged-group name, then manual
override, then the decoded leaf segment. -/
def displayDeviceName (mds : List MergedDevice) (overrides : List (String × String))
    (p : String) : String :=
  match mergedNameByPath mds p with
  | some mn => if jsTrim mn ≠ "" then jsTrim mn else overrideOrLeafName overrides p
  | none => overrideOrLeafName overrides p

/-- Hidden test of the export row loop, with its short-circuit guards:
`pointPath && hiddenFolderPaths.length ? isAtOrDownstream… : false`. -/
def exportIsHidden (hiddenFolderPaths : List String) (pointPath : String) : Bool :=
  if pointPath ≠ "" ∧ hiddenFolderPaths ≠ [] then
    isAtOrDownstreamOfAnyFolderPath pointPath hiddenFolderPaths
  else false

/-- Owner lookup of the export row loop:
`!isHidden && pointPath ? computeOwnerDevice(…) : null`. -/
def exportOwner (devicePaths hiddenFolderPaths : List String) (pointPath : String) :
    Option String :=
  if exportIsHidden hiddenFolderPaths pointPath = false ∧ pointPath ≠ "" then
    computeOwnerDevice pointPath devicePaths
  else none

/-- Model of the per-row `device_name` computation inside
`exportCsvWithDeviceNames`, applied to the row's path-column value. -/
def exportDeviceNameCell (devicePaths hiddenFolderPaths : List String)
    (mds : List MergedDevice) (overrides : List (String × String))
    (cellValue : String) : String :=
  if exportIsHidden hiddenFolderPaths (jsTrim cellValue) then "-"
  else
    match exportOwner devicePaths hiddenFolderPaths (jsTrim cellValue) with
    | some o => displayDeviceName mds overrides o
    | none => ""

/-- Covering test of `normalizeHiddenFolderPaths`: some other candidate
is an ancestor of `p` or the same as `p`. -/
def coveredBy (cands : List String) (p : String) : Bool :=
  cands.any (fun other =>
    decide (other ≠ p) &&
      (decide (getPathRelation other p = .ancestor)
        || decide (getPathRelation other p = .same)))

/-- First half of `normalizeHiddenFolderPaths`: trim, drop empties,
deduplicate, drop the root path, and (only when the folder tree has any
paths) drop paths absent from the tree. -/
def hiddenCandidates (treeFolderPaths incoming : List String) : List String :=
  ((jsDedup ((incoming.map jsTrim).filter (fun p => decide (p ≠ "")))).filter
      (fun p => decide (p ≠ "root"))).filter
    (fun p => if treeFolderPaths.isEmpty then true else decide (p ∈ treeFolderPaths))

/-- Model of `normalizeHiddenFolderPaths`. -/
def normalizeHiddenFolderPaths (treeFolderPaths incoming : List String) : List String :=
  sortStrings ((sortStrings (hiddenCandidates treeFolderPaths incoming)).filter
    (fun p => !(coveredBy (sortStrings (hiddenCandidates treeFolderPaths incoming)) p)))

/-- A point record: CSV path value plus display type label. -/
structure PointRecord where
  path : String
  type : String
deriving DecidableEq, Repr

/-- Selection self-overlap resolution, dropped half: candidates that are
a strict ancestor of another candidate of the (deduplicated) selection. -/
def planDropped (u : List String) : List String :=
  u.filter (fun c =>
    u.any (fun o => decide (o ≠ c) && decide (getPathRelation c o = .ancestor)))

/-- Selection self-overlap resolution, kept half (`toAdd`). -/
def planToAdd (u : List String) : List String :=
  u.filter (fun c =>
    !(u.any (fun o => decide (o ≠ c) && decide (getPathRelation c o = .ancestor))))

/-- An existing device conflicts with an incoming one when it is its
strict ancestor or strict descendant. -/
def conflictsWith (e inc : String) : Bool :=
  decide (getPathRelation e inc = .ancestor)
    || decide (getPathRelation e inc = .descendant)

/-- Unsorted to-remove set: existing devices conflicting with some kept
candidate (order of first insertion, i.e. device-list order). -/
def planToRemoveU (devicePaths toAdd : List String) : List String :=
  devicePaths.filter (fun e => toAdd.any (fun inc => conflictsWith e inc))

/-- Unsorted upstream conflicts: existing devices that are strict
ancestors of some kept candidate. -/
def planUpstreamU (devicePaths toAdd : List String) : List String :=
  devicePaths.filter (fun e =>
    toAdd.any (fun inc => decide (getPathRelation e inc = .ancestor)))

/-- Unsorted downstream conflicts: existing devices that are strict
descendants of some kept candidate. -/
def planDownstreamU (devicePaths toAdd : List String) : List String :=
  devicePaths.filter (fun e =>
    toAdd.any (fun inc => decide (getPathRelation e inc = .descendant)))

/-- Projected next device set:
`new Set([...devicePaths.filter(p => !toRemoveSet.has(p)), ...toAdd])`. -/
def nextDevicesOf (devicePaths toAdd : List String) : List String :=
  jsDedup (devicePaths.filter (fun p => !(toAdd.any (fun inc => conflictsWith p inc)))
    ++ toAdd)

/-- A reassignment group of the conflict plan. -/
structure RGroup where
  fromDevicePath : Option String
  toDevicePath : Option String
  pointPaths : List String
deriving DecidableEq, Repr

/-- Accumulator entry of the group map inside
`computeReassignmentGroups`: string key, the from/to owners of the first
inserted point, and the accumulated point-path set. -/
structure GAcc where
  key : String
  fromP : String
  toP : String
  pts : List String
deriving DecidableEq, Repr

/-- Insert a point into the group map: extend the entry whose key equals
`from ++ "→" ++ to`, or append a fresh entry at the end. -/
def rgInsert (f t p : String) : List GAcc → List GAcc
  | [] => [⟨f ++ "→" ++ t, f, t, [p]⟩]
  | g :: rest =>
    if g.key = f ++ "→" ++ t then { g with pts := insertUnique g.pts p } :: rest
    else g :: rgInsert f t p rest

/-- One iteration of the point loop of `computeReassignmentGroups`. -/
def reassignStep (cur next : List String) (m : List GAcc) (pt : PointRecord) :
    List GAcc :=
  match computeOwnerDevice pt.path cur, computeOwnerDevice pt.path next with
  | some f, some t => if f = t then m else rgInsert f t pt.path m
  | _, _ => m

/-- Sort key of the final group list. -/
def groupSortKey (g : RGroup) : String :=
  (g.fromDevicePath.getD "") ++ "→" ++ (g.toDevicePath.getD "")

instance : DecidableRel (fun a b : RGroup => strLe (groupSortKey a) (groupSortKey b)) :=
  fun a b => inferInstanceAs (Decidable (strLe (groupSortKey a) (groupSortKey b)))

/-- Model of `computeReassignmentGroups`. -/
def computeReassignmentGroups (points : List PointRecord) (cur next : List String) :
    List RGroup :=
  ((points.foldl (reassignStep cur next) []).map
    (fun g => RGroup.mk (some g.fromP) (some g.toP) (sortStrings g.pts))).insertionSort
    (fun a b => strLe (groupSortKey a) (groupSortKey b))

/-- A staged conflict plan (`PendingDeviceConflict` in the source). -/
structure PendingDeviceConflict where
  toAdd : List String
  toRemove : List String
  droppedFromSelection : List String
  upstreamConflicts : List String
  downstreamConflicts : List String
  reassignmentGroups : List RGroup
deriving DecidableEq, Repr

/-- A staged merge (`PendingMerge` in the source). -/
structure PendingMerge where
  memberPaths : List String
  suggestedName : String
deriving DecidableEq, Repr

/-- The engine-relevant part of the application state. -/
structure AppState where
  devicePaths : List String
  mergedDevices : List MergedDevice
  deviceNameByPath : List (String × String)
  selectedPaths : List String
  hiddenFolderPaths : List String
  points : List PointRecord
  pendingConflict : Option PendingDeviceConflict
  pendingMerge : Option PendingMerge
  mergeName : String
deriving DecidableEq, Repr

/-- Maintenance effect on merged devices when the device set changes:
keep only member paths that are still devices, drop emptied groups. -/
def pruneMergedDevices (devicePaths : List String) (prev : List MergedDevice) :
    List MergedDevice :=
  (prev.map (fun md =>
    { md with memberPaths := md.memberPaths.filter (fun p => decide (p ∈ devicePaths)) })).filter
    (fun md => decide (md.memberPaths ≠ []))

/-- Maintenance effect on name overrides when the device set changes. -/
def pruneNameOverrides (devicePaths : List String) (prev : List (String × String)) :
    List (String × String) :=
  prev.filter (fun kv => decide (kv.1 ∈ devicePaths))

/-- Set the device paths and run the two maintenance effects that react
to a device-set change. -/
def setDevicePathsWithEffects (s : AppState) (next : List String) : AppState :=
  { s with devicePaths := next,
           mergedDevices := pruneMergedDevices next s.mergedDevices,
           deviceNameByPath := pruneNameOverrides next s.deviceNameByPath }

/-- Model of `addDevices`. -/
def addDevicesFn (prev pathsToAdd : List String) : List String :=
  if pathsToAdd.isEmpty then prev else pathsToAdd.foldl insertUnique (jsDedup prev)

/-- Model of `applyDeviceChange` on the device-path list. -/
def applyDeviceChangeFn (prev nextAdd nextRemove : List String) : List String :=
  nextAdd.foldl insertUnique (jsDedup (prev.filter (fun p => decide (p ∉ nextRemove))))

/-- Model of the full conflict plan computed by `markSelectionAsDevices`
before it decides whether to stage it. -/
def conflictPlanOf (devicePaths selection : List String) (points : List PointRecord) :
    PendingDeviceConflict :=
  ⟨sortStrings (planToAdd (jsDedup selection)),
   sortStrings (planToRemoveU devicePaths (planToAdd (jsDedup selection))),
   sortStrings (planDropped (jsDedup selection)),
   sortStrings (planUpstreamU devicePaths (planToAdd (jsDedup selection))),
   sortStrings (planDownstreamU devicePaths (planToAdd (jsDedup selection))),
   computeReassignmentGroups points devicePaths
     (nextDevicesOf devicePaths (planToAdd (jsDedup selection)))⟩

/-- Model of `markSelectionAsDevices`. -/
def markSelectionAsDevices (s : AppState) : AppState :=
  if s.selectedPaths.isEmpty then s
  else if planToRemoveU s.devicePaths (planToAdd (jsDedup s.selectedPaths)) ≠ [] ∨
      planDropped (jsDedup s.selectedPaths) ≠ [] then
    { s with pendingConflict := some (conflictPlanOf s.devicePaths s.selectedPaths s.points) }
  else
    { setDevicePathsWithEffects s
        (addDevicesFn s.devicePaths (planToAdd (jsDedup s.selectedPaths))) with
      selectedPaths := [] }

/-- Model of `confirmDeviceConflict`. -/
def confirmDeviceConflict (s : AppState) : AppState :=
  match s.pendingConflict with
  | none => s
  | some pc =>
    { setDevicePathsWithEffects s (applyDeviceChangeFn s.devicePaths pc.toAdd pc.toRemove) with
        pendingConflict := none, selectedPaths := [] }

/-- Model of `cancelDeviceConflict`. -/
def cancelDeviceConflict (s : AppState) : AppState :=
  { s with pendingConflict := none }

/-- Model of `removeDevices` together with the maintenance effects. -/
def removeDevices (s : AppState) (pathsToRemove : List String) : AppState :=
  if pathsToRemove.isEmpty then s
  else setDevicePathsWithEffects s
    (s.devicePaths.filter (fun p => decide (p ∉ pathsToRemove)))

/-- Device paths after a merge confirmation: every staged member is
added to the set. -/
def confirmMergeDevicePaths (devicePaths memberPaths : List String) : List String :=
  (jsDedup memberPaths).foldl insertUnique (jsDedup devicePaths)

/-- Merged-device list after a merge confirmation, before the
maintenance prune: groups sharing a member are dropped entirely and the
new group is appended. -/
def confirmMergeGroups (mergedDevices : List MergedDevice) (memberPaths : List String)
    (name freshId : String) : List MergedDevice :=
  mergedDevices.filter
      (fun md => !(md.memberPaths.any (fun p => decide (p ∈ jsDedup memberPaths))))
    ++ [⟨freshId, name, sortStrings (jsDedup memberPaths)⟩]

/-- The state produced by a successful merge confirmation. -/
def mergedConfirmState (s : AppState) (pm : PendingMerge) (freshId : String) : AppState :=
  { s with devicePaths := confirmMergeDevicePaths s.devicePaths pm.memberPaths,
           mergedDevices := pruneMergedDevices
             (confirmMergeDevicePaths s.devicePaths pm.memberPaths)
             (confirmMergeGroups s.mergedDevices pm.memberPaths
               (jsTrim s.mergeName) freshId),
           deviceNameByPath := pruneNameOverrides
             (confirmMergeDevicePaths s.devicePaths pm.memberPaths)
             s.deviceNameByPath,
           pendingMerge := none,
           mergeName := "" }

/-- Model of `confirmMergeDevices` (the fresh group id is passed in,
standing for the `Date.now`/`Math.random` identifier). -/
def confirmMergeDevices (s : AppState) (freshId : String) : AppState :=
  match s.pendingMerge with
  | none => s
  | some pm =>
    if jsTrim s.mergeName = "" then s
    else mergedConfirmState s pm freshId

/-- A mutation of the device set relevant to the merge-uniqueness
claim: staging-then-confirming a merge, or removing devices. -/
inductive DeviceMutation where
  | mergeConfirm (memberPaths : List String) (name : String) (freshId : String)
  | removeDevs (paths : List String)
deriving Repr

/-- Apply one mutation to the state. -/
def applyMutation (s : AppState) (op : DeviceMutation) : AppState :=
  match op with
  | .mergeConfirm members name freshId =>
    confirmMergeDevices { s with pendingMerge := some ⟨members, name⟩, mergeName := name }
      freshId
  | .removeDevs paths => removeDevices s paths

/-- The Device-Set invariant: no path of the set is a strict ancestor or
strict descendant of another path of the set. -/
def DeviceSetInvariant (l : List String) : Prop :=
  ∀ a ∈ l, ∀ b ∈ l,
    getPathRelation a b ≠ .ancestor ∧ getPathRelation a b ≠ .descendant

instance (l : List String) : Decidable (DeviceSetInvariant l) :=
  inferInstanceAs (Decidable (∀ a ∈ l, ∀ b ∈ l, _ ∧ _))

/-- Two merged devices with no common member path. -/
def MergedMemberDisjoint (a b : MergedDevice) : Prop :=
  ∀ p, p ∈ a.memberPaths → p ∉ b.memberPaths

/-- Merge uniqueness: every folder path belongs to at most one merged
device of the list. -/
def MergeUnique (mds : List MergedDevice) : Prop :=
  List.Pairwise MergedMemberDisjoint mds

instance (a b : MergedDevice) : Decidable (MergedMemberDisjoint a b) :=
  decidable_of_iff (∀ p ∈ a.memberPaths, p ∉ b.memberPaths) (by
    constructor
    · intro h p hp; exact h p hp
    · intro h p hp; exact h p hp)

instance (mds : List MergedDevice) : Decidable (MergeUnique mds) :=
  inferInstanceAs (Decidable (List.Pairwise _ _))

/-- Swap of a path relation, exchanging `ancestor` and `descendant`. -/
def swapRel : PathRelation → PathRelation
  | .ancestor => .descendant
  | .descendant => .ancestor
  | .same => .same
  | .disjoint => .disjoint

/-- A point path is due to be reported by the reassignment computation:
owners under both device lists exist and differ. -/
def ReassignCond (cur next : List String) (p : String) : Prop :=
  ∃ f t, computeOwnerDevice p cur = some f ∧ computeOwnerDevice p next = some t ∧ f ≠ t

/-- A point path occurs in some entry of the group map. -/
def InPts (m : List GAcc) (p : String) : Prop := ∃ g ∈ m, p ∈ g.pts

/-- Invariant of the group map built by `computeReassignmentGroups`:
every entry's key is its recorded owner pair's key, and every stored
point path is reportable with that same key. -/
def GoodAcc (cur next : List String) (m : List GAcc) : Prop :=
  ∀ g ∈ m, g.key = g.fromP ++ "→" ++ g.toP ∧
    ∀ p ∈ g.pts,
      ∃ f t, computeOwnerDevice p cur = some f ∧ computeOwnerDevice p next = some t ∧
        f ≠ t ∧ f ++ "→" ++ t = g.key

/-- Well-formedness of the merged-device list maintained by the
application: groups are non-empty and their members are devices. -/
def MergedWellFormed (s : AppState) : Prop :=
  ∀ md ∈ s.mergedDevices, md.memberPaths ≠ [] ∧ ∀ p ∈ md.memberPaths, p ∈ s.devicePaths

/-! Helper lemmas about trimming, deduplication and sorting. -/

theorem head?_dropWhile_not {α : Type} (p : α → Bool) :
    ∀ (l : List α) (c : α), (l.dropWhile p).head? = some c → p c = false := by
  intro l
  induction l with
  | nil => intro c h; simp [List.dropWhile] at h
  | cons a t ih =>
    intro c h
    by_cases hpa : p a
    · rw [List.dropWhile_cons_of_pos hpa] at h; exact ih c h
    · rw [List.dropWhile_cons_of_neg hpa] at h
      simp only [List.head?_cons, Option.some.injEq] at h
      subst h; simpa using hpa

theorem dropWhile_dropWhile {α : Type} (p : α → Bool) (l : List α) :
    (l.dropWhile p).dropWhile p = l.dropWhile p := by
  cases h : l.dropWhile p with
  | nil => rfl
  | cons c t =>
    have hc : p c = false := head?_dropWhile_not p l c (by rw [h]; rfl)
    rw [List.dropWhile_cons_of_neg (by simp [hc])]

theorem exists_append_dropWhile {α : Type} (p : α → Bool) :
    ∀ l : List α, ∃ u, u ++ l.dropWhile p = l := by
  intro l
  induction l with
  | nil => exact ⟨[], rfl⟩
  | cons a t ih =>
    by_cases hpa : p a
    · obtain ⟨u, hu⟩ := ih
      exact ⟨a :: u, by rw [List.dropWhile_cons_of_pos hpa, List.cons_append, hu]⟩
    · exact ⟨[], by rw [List.dropWhile_cons_of_neg hpa]; rfl⟩

theorem jsTrimChars_idem (l : List Char) : jsTrimChars (jsTrimChars l) = jsTrimChars l := by
  unfold jsTrimChars
  have h1 : (((l.dropWhile isJsWS).reverse.dropWhile isJsWS).reverse).dropWhile isJsWS
      = ((l.dropWhile isJsWS).reverse.dropWhile isJsWS).reverse := by
    cases hR : ((l.dropWhile isJsWS).reverse.dropWhile isJsWS).reverse with
    | nil => rfl
    | cons c t =>
      obtain ⟨u, hu⟩ := exists_append_dropWhile isJsWS (l.dropWhile isJsWS).reverse
      have hu' : l.dropWhile isJsWS
          = ((l.dropWhile isJsWS).reverse.dropWhile isJsWS).reverse ++ u.reverse := by
        have h2 := congrArg List.reverse hu
        simpa using h2.symm
      have hhead : (l.dropWhile isJsWS).head? = some c := by
        rw [hu', hR]; rfl
      have hc : isJsWS c = false := head?_dropWhile_not _ l c hhead
      rw [← hR, hR, List.dropWhile_cons_of_neg (by simp [hc])]
  rw [h1, List.reverse_reverse, dropWhile_dropWhile]

theorem jsTrim_idem (s : String) : jsTrim (jsTrim s) = jsTrim s := by
  show (⟨jsTrimChars (jsTrimChars s.data)⟩ : String) = ⟨jsTrimChars s.data⟩
  rw [jsTrimChars_idem]

theorem mem_insertUnique {l : List String} {x y : String} :
    y ∈ insertUnique l x ↔ y ∈ l ∨ y = x := by
  unfold insertUnique
  by_cases h : x ∈ l
  · rw [if_pos h]
    exact ⟨Or.inl, fun h' => h'.elim id (fun he => he ▸ h)⟩
  · rw [if_neg h]; simp

theorem nodup_insertUnique {l : List String} (x : String) (h : l.Nodup) :
    (insertUnique l x).Nodup := by
  unfold insertUnique
  by_cases hx : x ∈ l
  · rwa [if_pos hx]
  · rw [if_neg hx, List.nodup_append]
    exact ⟨h, List.nodup_singleton x, by
      intro a ha hb
      simp only [List.mem_singleton] at hb
      exact hx (hb ▸ ha)⟩

theorem mem_foldl_insertUnique :
    ∀ (l acc : List String) (x : String),
      x ∈ l.foldl insertUnique acc ↔ x ∈ acc ∨ x ∈ l := by
  intro l
  induction l with
  | nil => simp
  | cons a t ih =>
    intro acc x
    rw [List.foldl_cons, ih, mem_insertUnique]
    simp only [List.mem_cons]
    tauto

theorem nodup_foldl_insertUnique :
    ∀ (l acc : List String), acc.Nodup → (l.foldl insertUnique acc).Nodup := by
  intro l
  induction l with
  | nil => intro acc h; simpa
  | cons a t ih =>
    intro acc h
    rw [List.foldl_cons]
    exact ih _ (nodup_insertUnique a h)

theorem mem_jsDedup {l : List String} {x : String} : x ∈ jsDedup l ↔ x ∈ l := by
  unfold jsDedup
  rw [mem_foldl_insertUnique]
  simp

theorem nodup_jsDedup (l : List String) : (jsDedup l).Nodup :=
  nodup_foldl_insertUnique l [] List.nodup_nil

theorem foldl_insertUnique_append :
    ∀ (l acc : List String), l.Nodup → (∀ x ∈ l, x ∉ acc) →
      l.foldl insertUnique acc = acc ++ l := by
  intro l
  induction l with
  | nil => intro acc _ _; simp
  | cons a t ih =>
    intro acc hnd hdis
    rw [List.foldl_cons]
    have ha : a ∉ acc := hdis a (List.mem_cons_self a t)
    have h1 : insertUnique acc a = acc ++ [a] := by unfold insertUnique; rw [if_neg ha]
    rw [h1, ih (acc ++ [a]) hnd.of_cons]
    · simp
    · intro x hx
      rw [List.mem_append]
      rintro (h | h)
      · exact hdis x (List.mem_cons_of_mem a hx) h
      · simp only [List.mem_singleton] at h
        subst h
        exact (List.nodup_cons.mp hnd).1 hx

theorem jsDedup_eq_self {l : List String} (h : l.Nodup) : jsDedup l = l := by
  unfold jsDedup
  rw [foldl_insertUnique_append l [] h (by simp)]
  rfl

theorem jsDedup_ne_nil {l : List String} (h : l ≠ []) : jsDedup l ≠ [] := by
  obtain ⟨x, hx⟩ := List.exists_mem_of_ne_nil l h
  intro hc
  have hm := mem_jsDedup.mpr hx
  rw [hc] at hm
  simp at hm

theorem mem_sortStrings {l : List String} {x : String} : x ∈ sortStrings l ↔ x ∈ l :=
  List.mem_insertionSort _

theorem sorted_sortStrings (l : List String) : (sortStrings l).Sorted strLe :=
  List.sorted_insertionSort _ l

theorem sortStrings_eq_self {l : List String} (h : l.Sorted strLe) : sortStrings l = l :=
  h.insertionSort_eq

theorem perm_sortStrings (l : List String) : List.Perm (sortStrings l) l :=
  List.perm_insertionSort _ l

theorem nodup_sortStrings {l : List String} (h : l.Nodup) : (sortStrings l).Nodup :=
  (perm_sortStrings l).nodup_iff.mpr h

theorem sortStrings_ne_nil {l : List String} (h : l ≠ []) : sortStrings l ≠ [] := by
  intro hc
  exact h (List.eq_nil_of_length_eq_zero
    (by rw [← (perm_sortStrings l).length_eq, hc]; rfl))

/-! Helper lemmas about the path relation. -/

theorem segMismatch_nil_left (ys : List String) : ¬ SegMismatch [] ys := by
  simp [SegMismatch]

theorem segMismatch_nil_right (xs : List String) : ¬ SegMismatch xs [] := by
  simp [SegMismatch]

theorem segMismatch_cons {x y : String} {xs ys : List String} :
    SegMismatch (x :: xs) (y :: ys) ↔ x ≠ y ∨ SegMismatch xs ys := by
  simp only [SegMismatch, List.zip_cons_cons, List.mem_cons]
  constructor
  · rintro ⟨pr, hpr | hpr, hne⟩
    · subst hpr; exact Or.inl hne
    · exact Or.inr ⟨pr, hpr, hne⟩
  · rintro (h | ⟨pr, hpr, hne⟩)
    · exact ⟨(x, y), Or.inl rfl, h⟩
    · exact ⟨pr, Or.inr hpr, hne⟩

theorem segMismatch_comm : ∀ xs ys : List String, SegMismatch xs ys ↔ SegMismatch ys xs := by
  intro xs
  induction xs with
  | nil =>
    intro ys
    exact ⟨fun h => absurd h (segMismatch_nil_left ys),
           fun h => absurd h (segMismatch_nil_right ys)⟩
  | cons x xs ih =>
    intro ys
    cases ys with
    | nil =>
      exact ⟨fun h => absurd h (segMismatch_nil_right _),
             fun h => absurd h (segMismatch_nil_left _)⟩
    | cons y ys =>
      rw [segMismatch_cons, segMismatch_cons, ih, ne_comm]

theorem segMismatch_append (t : List String) :
    ∀ xs : List String, ¬ SegMismatch xs (xs ++ t) := by
  intro xs
  induction xs with
  | nil => exact segMismatch_nil_left t
  | cons x xs ih =>
    rw [List.cons_append, segMismatch_cons]
    rintro (h | h)
    · exact h rfl
    · exact ih h

theorem segMismatch_ne_nil {xs ys : List String} (h : SegMismatch xs ys) :
    xs ≠ [] ∧ ys ≠ [] := by
  obtain ⟨pr, hpr, _⟩ := h
  constructor <;> rintro rfl <;> simp at hpr

theorem relOfSegs_swap (xs ys : List String) : relOfSegs ys xs = swapRel (relOfSegs xs ys) := by
  unfold relOfSegs
  by_cases h1 : xs = [] ∨ ys = []
  · rw [if_pos h1, if_pos h1.symm]; rfl
  · have h1' : ¬(ys = [] ∨ xs = []) := fun h => h1 h.symm
    rw [if_neg h1', if_neg h1]
    by_cases h2 : SegMismatch xs ys
    · rw [if_pos ((segMismatch_comm xs ys).mp h2), if_pos h2]; rfl
    · have h2' : ¬SegMismatch ys xs := fun h => h2 ((segMismatch_comm ys xs).mp h)
      rw [if_neg h2', if_neg h2]
      rcases Nat.lt_trichotomy xs.length ys.length with hlt | heq | hgt
      · rw [if_neg (by omega), if_neg (by omega), if_neg (by omega), if_pos hlt]; rfl
      · rw [if_pos heq.symm, if_pos heq]; rfl
      · rw [if_neg (by omega), if_pos hgt, if_neg (by omega), if_neg (by omega)]; rfl

theorem getPathRelation_swap (a b : String) :
    getPathRelation b a = swapRel (getPathRelation a b) :=
  relOfSegs_swap _ _

theorem rel_desc_of_anc {a b : String} (h : getPathRelation a b = .ancestor) :
    getPathRelation b a = .descendant := by
  rw [getPathRelation_swap, h]; rfl

theorem rel_anc_of_desc {a b : String} (h : getPathRelation a b = .descendant) :
    getPathRelation b a = .ancestor := by
  rw [getPathRelation_swap, h]; rfl

theorem relOfSegs_self (xs : List String) :
    relOfSegs xs xs = .same ∨ relOfSegs xs xs = .disjoint := by
  unfold relOfSegs
  by_cases h : xs = [] ∨ xs = []
  · rw [if_pos h]; right; rfl
  · have hm : ¬ SegMismatch xs xs := by
      have := segMismatch_append [] xs
      rwa [List.append_nil] at this
    rw [if_neg h, if_neg hm, if_pos rfl]
    left; rfl

theorem getPathRelation_self_ne (a : String) :
    getPathRelation a a ≠ .ancestor ∧ getPathRelation a a ≠ .descendant := by
  rcases relOfSegs_self (toComparableSegments a) with h | h <;>
    (unfold getPathRelation; rw [h]; exact ⟨by simp, by simp⟩)

/-! Helper lemmas about the ownership resolver. -/

theorem ownerStep_of_not_qual {pointPath d : String} (best : Option (String × Nat))
    (h : ¬ Qualifies pointPath d) : ownerStep pointPath best d = best := by
  unfold ownerStep
  rw [if_pos ⟨fun hc => h (Or.inl hc), fun hc => h (Or.inr hc)⟩]

theorem ownerStep_none_of_qual {pointPath d : String} (h : Qualifies pointPath d) :
    ownerStep pointPath none d = some (d, rawSegmentDepth d) := by
  unfold ownerStep
  rw [if_neg (fun hc => h.elim hc.1 hc.2)]

theorem ownerStep_some_of_qual {pointPath d bp : String} {bd : Nat}
    (h : Qualifies pointPath d) :
    ownerStep pointPath (some (bp, bd)) d =
      if rawSegmentDepth d > bd then some (d, rawSegmentDepth d) else some (bp, bd) := by
  unfold ownerStep
  rw [if_neg (fun hc => h.elim hc.1 hc.2)]

theorem ownerLoop_some :
    ∀ (ds : List String) (pp : String) (x : String × Nat),
      ∃ y, ds.foldl (ownerStep pp) (some x) = some y := by
  intro ds
  induction ds with
  | nil => intro pp x; exact ⟨x, rfl⟩
  | cons d t ih =>
    intro pp x
    rw [List.foldl_cons]
    by_cases h : Qualifies pp d
    · obtain ⟨bp, bd⟩ := x
      rw [ownerStep_some_of_qual h]
      by_cases hgt : rawSegmentDepth d > bd
      · rw [if_pos hgt]; exact ih pp _
      · rw [if_neg hgt]; exact ih pp _
    · rw [ownerStep_of_not_qual _ h]; exact ih pp _

theorem ownerLoop_none_iff :
    ∀ (ds : List String) (pp : String),
      ds.foldl (ownerStep pp) none = none ↔ ∀ d ∈ ds, ¬ Qualifies pp d := by
  intro ds
  induction ds with
  | nil => intro pp; simp
  | cons d t ih =>
    intro pp
    rw [List.foldl_cons]
    by_cases h : Qualifies pp d
    · rw [ownerStep_none_of_qual h]
      constructor
      · intro hc
        obtain ⟨y, hy⟩ := ownerLoop_some t pp (d, rawSegmentDepth d)
        rw [hy] at hc
        cases hc
      · intro hall
        exact absurd h (hall d (List.mem_cons_self d t))
    · rw [ownerStep_of_not_qual _ h, ih]
      constructor
      · intro hall e he
        rcases List.mem_cons.mp he with rfl | he'
        · exact h
        · exact hall e he'
      · intro hall e he
        exact hall e (List.mem_cons_of_mem d he)

theorem ownerLoop_max :
    ∀ (ds : List String) (pp bp : String) (bd : Nat) (rp : String) (rd : Nat),
      ds.foldl (ownerStep pp) (some (bp, bd)) = some (rp, rd) →
      bd ≤ rd ∧ ∀ d ∈ ds, Qualifies pp d → rawSegmentDepth d ≤ rd := by
  intro ds
  induction ds with
  | nil =>
    intro pp bp bd rp rd h
    simp only [List.foldl_nil, Option.some.injEq, Prod.mk.injEq] at h
    exact ⟨h.2 ▸ le_refl _, by simp⟩
  | cons d t ih =>
    intro pp bp bd rp rd h
    rw [List.foldl_cons] at h
    by_cases hq : Qualifies pp d
    · rw [ownerStep_some_of_qual hq] at h
      by_cases hgt : rawSegmentDepth d > bd
      · rw [if_pos hgt] at h
        obtain ⟨hle, hall⟩ := ih pp d (rawSegmentDepth d) rp rd h
        refine ⟨le_trans (le_of_lt hgt) hle, ?_⟩
        intro e he hqe
        rcases List.mem_cons.mp he with rfl | he'
        · exact hle
        · exact hall e he' hqe
      · rw [if_neg hgt] at h
        obtain ⟨hle, hall⟩ := ih pp bp bd rp rd h
        refine ⟨hle, ?_⟩
        intro e he hqe
        rcases List.mem_cons.mp he with rfl | he'
        · exact le_trans (Nat.le_of_not_lt hgt) hle
        · exact hall e he' hqe
    · rw [ownerStep_of_not_qual _ hq] at h
      obtain ⟨hle, hall⟩ := ih pp bp bd rp rd h
      refine ⟨hle, ?_⟩
      intro e he hqe
      rcases List.mem_cons.mp he with rfl | he'
      · exact absurd hqe hq
      · exact hall e he' hqe

theorem ownerLoop_first :
    ∀ (ds : List String) (pp bp : String) (bd : Nat) (rp : String) (rd : Nat),
      bd = rawSegmentDepth bp →
      ds.foldl (ownerStep pp) (some (bp, bd)) = some (rp, rd) →
      (rp = bp ∧ rd = bd) ∨
        ∃ l₁ l₂, ds = l₁ ++ rp :: l₂ ∧ Qualifies pp rp ∧ rd = rawSegmentDepth rp ∧
          bd < rd ∧ ∀ e ∈ l₁, Qualifies pp e → rawSegmentDepth e < rd := by
  intro ds
  induction ds with
  | nil =>
    intro pp bp bd rp rd _ h
    simp only [List.foldl_nil, Option.some.injEq, Prod.mk.injEq] at h
    exact Or.inl ⟨h.1.symm, h.2.symm⟩
  | cons d t ih =>
    intro pp bp bd rp rd hb h
    rw [List.foldl_cons] at h
    by_cases hq : Qualifies pp d
    · rw [ownerStep_some_of_qual hq] at h
      by_cases hgt : rawSegmentDepth d > bd
      · rw [if_pos hgt] at h
        rcases ih pp d (rawSegmentDepth d) rp rd rfl h with
          ⟨hrp, hrd⟩ | ⟨l₁, l₂, ht, hq', hrd, hlt, hall⟩
        · subst hrp
          right
          exact ⟨[], t, rfl, hq, hrd, hrd ▸ hgt, by simp⟩
        · right
          refine ⟨d :: l₁, l₂, by rw [ht]; rfl, hq', hrd, lt_trans hgt hlt, ?_⟩
          intro e he hqe
          rcases List.mem_cons.mp he with rfl | he'
          · exact hlt
          · exact hall e he' hqe
      · rw [if_neg hgt] at h
        rcases ih pp bp bd rp rd hb h with hl | ⟨l₁, l₂, ht, hq', hrd, hlt, hall⟩
        · exact Or.inl hl
        · right
          refine ⟨d :: l₁, l₂, by rw [ht]; rfl, hq', hrd, hlt, ?_⟩
          intro e he hqe
          rcases List.mem_cons.mp he with rfl | he'
          · exact lt_of_le_of_lt (Nat.le_of_not_lt hgt) hlt
          · exact hall e he' hqe
    · rw [ownerStep_of_not_qual _ hq] at h
      rcases ih pp bp bd rp rd hb h with hl | ⟨l₁, l₂, ht, hq', hrd, hlt, hall⟩
      · exact Or.inl hl
      · right
        refine ⟨d :: l₁, l₂, by rw [ht]; rfl, hq', hrd, hlt, ?_⟩
        intro e he hqe
        rcases List.mem_cons.mp he with rfl | he'
        · exact absurd hqe hq
        · exact hall e he' hqe

theorem ownerLoop_first_none :
    ∀ (ds : List String) (pp rp : String) (rd : Nat),
      ds.foldl (ownerStep pp) none = some (rp, rd) →
      ∃ l₁ l₂, ds = l₁ ++ rp :: l₂ ∧ Qualifies pp rp ∧ rd = rawSegmentDepth rp ∧
        ∀ e ∈ l₁, Qualifies pp e → rawSegmentDepth e < rd := by
  intro ds
  induction ds with
  | nil => intro pp rp rd h; cases h
  | cons d t ih =>
    intro pp rp rd h
    rw [List.foldl_cons] at h
    by_cases hq : Qualifies pp d
    · rw [ownerStep_none_of_qual hq] at h
      rcases ownerLoop_first t pp d (rawSegmentDepth d) rp rd rfl h with
        ⟨hrp, hrd⟩ | ⟨l₁, l₂, ht, hq', hrd, hlt, hall⟩
      · subst hrp
        exact ⟨[], t, rfl, hq, hrd, by simp⟩
      · refine ⟨d :: l₁, l₂, by rw [ht]; rfl, hq', hrd, ?_⟩
        intro e he hqe
        rcases List.mem_cons.mp he with rfl | he'
        · exact hlt
        · exact hall e he' hqe
    · rw [ownerStep_of_not_qual _ hq] at h
      obtain ⟨l₁, l₂, ht, hq', hrd, hall⟩ := ih pp rp rd h
      refine ⟨d :: l₁, l₂, by rw [ht]; rfl, hq', hrd, ?_⟩
      intro e he hqe
      rcases List.mem_cons.mp he with rfl | he'
      · exact absurd hqe hq
      · exact hall e he' hqe

theorem ownerLoop_max_none :
    ∀ (ds : List String) (pp rp : String) (rd : Nat),
      ds.foldl (ownerStep pp) none = some (rp, rd) →
      ∀ d ∈ ds, Qualifies pp d → rawSegmentDepth d ≤ rd := by
  intro ds
  induction ds with
  | nil => intro pp rp rd h; cases h
  | cons d t ih =>
    intro pp rp rd h e he hqe
    rw [List.foldl_cons] at h
    by_cases hq : Qualifies pp d
    · rw [ownerStep_none_of_qual hq] at h
      have hmax := ownerLoop_max t pp d (rawSegmentDepth d) rp rd h
      rcases List.mem_cons.mp he with rfl | he'
      · exact hmax.1
      · exact hmax.2 e he' hqe
    · rw [ownerStep_of_not_qual _ hq] at h
      rcases List.mem_cons.mp he with rfl | he'
      · exact absurd hqe hq
      · exact ih pp rp rd h e he' hqe

theorem ownerLoop_filter :
    ∀ (ds : List String) (pp : String) (acc : Option (String × Nat)),
      ds.foldl (ownerStep pp) acc
        = (ds.filter (fun d => decide (Qualifies pp d))).foldl (ownerStep pp) acc := by
  intro ds
  induction ds with
  | nil => intro pp acc; rfl
  | cons d t ih =>
    intro pp acc
    rw [List.foldl_cons]
    by_cases hq : Qualifies pp d
    · rw [List.filter_cons, if_pos (decide_eq_true hq), List.foldl_cons, ih]
    · rw [List.filter_cons, if_neg (by simpa using hq), ownerStep_of_not_qual _ hq, ih]

theorem computeOwnerDevice_eq_none_iff {pp : String} {ds : List String} :
    computeOwnerDevice pp ds = none ↔ ∀ d ∈ ds, ¬ Qualifies pp d := by
  unfold computeOwnerDevice
  rw [Option.map_eq_none']
  exact ownerLoop_none_iff ds pp

theorem computeOwnerDevice_some {pp d : String} {ds : List String}
    (h : computeOwnerDevice pp ds = some d) :
    ∃ l₁ l₂, ds = l₁ ++ d :: l₂ ∧ Qualifies pp d ∧
      (∀ e ∈ l₁, Qualifies pp e → rawSegmentDepth e < rawSegmentDepth d) ∧
      (∀ e ∈ ds, Qualifies pp e → rawSegmentDepth e ≤ rawSegmentDepth d) := by
  unfold computeOwnerDevice at h
  cases hf : ds.foldl (ownerStep pp) none with
  | none => rw [hf] at h; cases h
  | some x =>
    obtain ⟨rp, rd⟩ := x
    rw [hf] at h
    simp only [Option.map_some', Option.some.injEq] at h
    subst h
    obtain ⟨l₁, l₂, ht, hq, hrd, hall⟩ := ownerLoop_first_none ds pp rp rd hf
    have hmax := ownerLoop_max_none ds pp rp rd hf
    exact ⟨l₁, l₂, ht, hq, fun e he hqe => hrd ▸ hall e he hqe,
      fun e he hqe => hrd ▸ hmax e he hqe⟩

theorem relOfSegs_of_empty {xs ys : List String} (h : xs = [] ∨ ys = []) :
    relOfSegs xs ys = .disjoint := by
  unfold relOfSegs
  rw [if_pos h]

theorem relOfSegs_of_mismatch {xs ys : List String} (h : SegMismatch xs ys) :
    relOfSegs xs ys = .disjoint := by
  have hne := segMismatch_ne_nil h
  unfold relOfSegs
  rw [if_neg, if_pos h]
  rintro (h1 | h2)
  · exact hne.1 h1
  · exact hne.2 h2

theorem relOfSegs_of_eq {xs ys : List String} (hne : xs ≠ []) (heq : xs = ys) :
    relOfSegs xs ys = .same := by
  have hm : ¬ SegMismatch xs ys := by
    rw [← heq]
    have := segMismatch_append [] xs
    rwa [List.append_nil] at this
  unfold relOfSegs
  rw [if_neg, if_neg hm, if_pos (by rw [heq])]
  rintro (h1 | h2)
  · exact hne h1
  · exact hne (heq.trans h2)

theorem relOfSegs_of_strict_extension {xs ys : List String} (hne : xs ≠ [])
    (h : ∃ t, t ≠ [] ∧ ys = xs ++ t) : relOfSegs xs ys = .ancestor := by
  obtain ⟨t, htne, hbt⟩ := h
  have hm : ¬ SegMismatch xs ys := hbt ▸ segMismatch_append t xs
  have hyne : ys ≠ [] := by
    rw [hbt]
    intro hc
    exact htne (List.append_eq_nil.mp hc).2
  have hlen : xs.length < ys.length := by
    rw [hbt, List.length_append]
    have := List.length_pos.mpr htne
    omega
  unfold relOfSegs
  rw [if_neg, if_neg hm, if_neg (by omega), if_pos hlen]
  rintro (h1 | h2)
  · exact hne h1
  · exact hyne h2

/-- C3: `getPathRelation` is a total function (it always produces one of
the four relation values — the Lean model is total by construction), and
on the comparable segment lists of its arguments it returns `disjoint`
when either list is empty, `disjoint` on any pairwise segment mismatch
within the shorter length, `same` on equal non-empty lists, `ancestor`
when the first list is a strict prefix of the second, and `descendant`
in the symmetric case. -/
theorem c3_getPathRelation_cases (a b : String) :
    (getPathRelation a b = .same ∨ getPathRelation a b = .ancestor ∨
      getPathRelation a b = .descendant ∨ getPathRelation a b = .disjoint)
    ∧ ((toComparableSegments a = [] ∨ toComparableSegments b = []) →
        getPathRelation a b = .disjoint)
    ∧ (SegMismatch (toComparableSegments a) (toComparableSegments b) →
        getPathRelation a b = .disjoint)
    ∧ (toComparableSegments a ≠ [] → toComparableSegments a = toComparableSegments b →
        getPathRelation a b = .same)
    ∧ (toComparableSegments a ≠ [] →
        (∃ t, t ≠ [] ∧ toComparableSegments b = toComparableSegments a ++ t) →
        getPathRelation a b = .ancestor)
    ∧ (toComparableSegments b ≠ [] →
        (∃ t, t ≠ [] ∧ toComparableSegments a = toComparableSegments b ++ t) →
        getPathRelation a b = .descendant) := by
  refine ⟨?_, relOfSegs_of_empty, relOfSegs_of_mismatch, relOfSegs_of_eq, ?_, ?_⟩
  · cases getPathRelation a b <;> simp
  · exact relOfSegs_of_strict_extension
  · intro hne h
    have hanc : getPathRelation b a = .ancestor := relOfSegs_of_strict_extension hne h
    exact rel_desc_of_anc hanc

/-- C3 witness: the theorem applied at the concrete pair
`("root/a", "root/a/b")`, whose segment lists are `["a"]` and
`["a", "b"]`. -/
theorem c3_witness : getPathRelation "root/a" "root/a/b" = .ancestor :=
  (c3_getPathRelation_cases "root/a" "root/a/b").2.2.2.2.1 (by decide)
    ⟨["b"], by decide, by decide⟩

/-- C2 counterexample: with devices `["root/a", "a/b"]` and point
`"a/b/c"` both devices qualify, but `computeOwnerDevice` returns
`"root/a"`, whose folder-segment depth in the claim's sense (non-empty
segments after stripping the root segment) is 1, strictly less than the
depth 2 of the qualifying candidate `"a/b"`; so the returned candidate
does not have the greatest stripped depth. -/
theorem c2_counterexample :
    computeOwnerDevice "a/b/c" ["root/a", "a/b"] = some "root/a"
    ∧ Qualifies "a/b/c" "a/b"
    ∧ specFolderDepth "root/a" < specFolderDepth "a/b" := by decide

/-- C2 (amended): `computeOwnerDevice` ignores exactly the devices whose
relation to the point path is neither `ancestor` nor `same`, returns
`none` precisely when no device qualifies, and otherwise returns a
qualifying device of greatest raw segment depth, where the raw depth is
`d.split('/').filter(Boolean).length` computed on the unnormalized
device string (the root segment counts and backslashes are not
converted) — not the spec's root-stripped depth. No Device-Set
invariant is assumed. -/
theorem c2_owner_resolver (pointPath : String) (devices : List String) :
    computeOwnerDevice pointPath devices
        = computeOwnerDevice pointPath
            (devices.filter (fun d => decide (Qualifies pointPath d)))
    ∧ (computeOwnerDevice pointPath devices = none ↔
        ∀ d ∈ devices, ¬ Qualifies pointPath d)
    ∧ (∀ d, computeOwnerDevice pointPath devices = some d →
        d ∈ devices ∧ Qualifies pointPath d ∧
          ∀ e ∈ devices, Qualifies pointPath e →
            rawSegmentDepth e ≤ rawSegmentDepth d) := by
  refine ⟨?_, computeOwnerDevice_eq_none_iff, ?_⟩
  · unfold computeOwnerDevice
    rw [ownerLoop_filter]
  · intro d h
    obtain ⟨l₁, l₂, ht, hq, _, hmax⟩ := computeOwnerDevice_some h
    exact ⟨ht ▸ List.mem_append.mpr (Or.inr (List.mem_cons_self d l₂)), hq, hmax⟩

/-- C2 witness: the amended theorem applied at point `"root/a/p"` and
device list `["root/a"]`. -/
theorem c2_witness :
    "root/a" ∈ ["root/a"] ∧ Qualifies "root/a/p" "root/a" ∧
      ∀ e ∈ ["root/a"], Qualifies "root/a/p" e →
        rawSegmentDepth e ≤ rawSegmentDepth "root/a" :=
  (c2_owner_resolver "root/a/p" ["root/a"]).2.2 "root/a" (by decide)

/-- C10 counterexample: the devices `"root/a/b"` and `"root//a/b"` are
distinct strings that both qualify for the point `"root/a/b/c"` with
equal raw depth, yet the Device-Set invariant (no ancestor/descendant
pair) holds for the two-element set — their relation is `same` — so an
equal-depth tie does not require an invariant violation. -/
theorem c10_counterexample :
    DeviceSetInvariant ["root/a/b", "root//a/b"]
    ∧ ("root/a/b" : String) ≠ "root//a/b"
    ∧ Qualifies "root/a/b/c" "root/a/b"
    ∧ Qualifies "root/a/b/c" "root//a/b"
    ∧ rawSegmentDepth "root/a/b" = rawSegmentDepth "root//a/b" := by decide

/-- C10 (amended): in `computeOwnerDevice` a candidate's depth is the
raw `'/'`-split non-empty segment count of the unnormalized device
string, and a qualifying candidate replaces the running best only when
its depth is strictly greater; hence the returned device is a
qualifying candidate of maximal raw depth such that every qualifying
candidate listed strictly before it has strictly smaller raw depth, and
in particular of two equal-depth qualifying devices the one occurring
earlier in the list is returned.  (Such ties are possible even when the
Device-Set invariant holds, e.g. for the `same`-related pair
`root/a/b`, `root//a/b` of the counterexample.) -/
theorem c10_owner_tie_break :
    (∀ pointPath devices d, computeOwnerDevice pointPath devices = some d →
      ∃ l₁ l₂, devices = l₁ ++ d :: l₂ ∧ Qualifies pointPath d ∧
        (∀ e ∈ l₁, Qualifies pointPath e → rawSegmentDepth e < rawSegmentDepth d) ∧
        (∀ e ∈ devices, Qualifies pointPath e → rawSegmentDepth e ≤ rawSegmentDepth d))
    ∧ (∀ pointPath d₁ d₂, Qualifies pointPath d₁ → Qualifies pointPath d₂ →
        rawSegmentDepth d₁ = rawSegmentDepth d₂ →
        computeOwnerDevice pointPath [d₁, d₂] = some d₁) := by
  constructor
  · intro pointPath devices d h
    exact computeOwnerDevice_some h
  · intro pointPath d₁ d₂ h₁ h₂ hdep
    unfold computeOwnerDevice
    rw [show ([d₁, d₂] : List String).foldl (ownerStep pointPath) none
        = ownerStep pointPath (ownerStep pointPath none d₁) d₂ from rfl]
    rw [ownerStep_none_of_qual h₁, ownerStep_some_of_qual h₂,
      if_neg (by omega), Option.map_some']

/-- C10 witness: the tie-break conjunct applied to the devices `"a"` and
`"a "` (equal raw depth, both qualifying for point `"a/b"`). -/
theorem c10_witness : computeOwnerDevice "a/b" ["a", "a "] = some "a" :=
  c10_owner_tie_break.2 "a/b" "a" "a " (by decide) (by decide) (by decide)

/-- C4: on the deduplicated selection, the Conflict Planner drops
exactly the candidates that are a strict ancestor of another selected
candidate and keeps exactly the others as to-add, and on
the selection `[root/X, root/X/Y]` it keeps `root/X/Y` and drops
`root/X`. -/
theorem c4_selection_self_overlap (selection : List String) :
    (∀ p, p ∈ planDropped (jsDedup selection) ↔
      p ∈ jsDedup selection ∧
        ∃ q ∈ jsDedup selection, q ≠ p ∧ getPathRelation p q = .ancestor)
    ∧ (∀ p, p ∈ planToAdd (jsDedup selection) ↔
      p ∈ jsDedup selection ∧
        ¬∃ q ∈ jsDedup selection, q ≠ p ∧ getPathRelation p q = .ancestor)
    ∧ planToAdd (jsDedup ["root/X", "root/X/Y"]) = ["root/X/Y"]
    ∧ planDropped (jsDedup ["root/X", "root/X/Y"]) = ["root/X"] := by
  refine ⟨?_, ?_, by decide, by decide⟩
  · intro p
    unfold planDropped
    rw [List.mem_filter]
    simp [List.any_eq_true]
  · intro p
    unfold planToAdd
    rw [List.mem_filter]
    simp [List.any_eq_true]

/-- C4 witness: the characterization applied at the concrete selection
`[root/X, root/X/Y]` and candidate `root/X`. -/
theorem c4_witness :
    "root/X" ∈ planDropped (jsDedup ["root/X", "root/X/Y"]) :=
  ((c4_selection_self_overlap ["root/X", "root/X/Y"]).1 "root/X").mpr
    ⟨by decide, "root/X/Y", by decide, by decide, by decide⟩

/-! Helper lemmas about the reassignment group map. -/

theorem inPts_nil (q : String) : ¬ InPts [] q := by simp [InPts]

theorem inPts_cons {g : GAcc} {m : List GAcc} {q : String} :
    InPts (g :: m) q ↔ q ∈ g.pts ∨ InPts m q := by
  constructor
  · rintro ⟨g', hg', hq⟩
    rcases List.mem_cons.mp hg' with rfl | hg''
    · exact Or.inl hq
    · exact Or.inr ⟨g', hg'', hq⟩
  · rintro (hq | ⟨g', hg', hq⟩)
    · exact ⟨g, List.mem_cons_self _ _, hq⟩
    · exact ⟨g', List.mem_cons_of_mem _ hg', hq⟩

theorem inPts_rgInsert (f t p : String) :
    ∀ (m : List GAcc) (q : String), InPts (rgInsert f t p m) q ↔ InPts m q ∨ q = p := by
  intro m
  induction m with
  | nil =>
    intro q
    unfold rgInsert
    rw [inPts_cons]
    simp [InPts]
  | cons g rest ih =>
    intro q
    unfold rgInsert
    by_cases hk : g.key = f ++ "→" ++ t
    · rw [if_pos hk, inPts_cons, inPts_cons]
      have h1 : q ∈ ({ g with pts := insertUnique g.pts p } : GAcc).pts ↔
          q ∈ g.pts ∨ q = p := mem_insertUnique
      rw [h1]
      tauto
    · rw [if_neg hk, inPts_cons, inPts_cons, ih]
      tauto

theorem goodAcc_rgInsert (cur next : List String) (f t p : String)
    (hf : computeOwnerDevice p cur = some f) (ht : computeOwnerDevice p next = some t)
    (hne : f ≠ t) :
    ∀ m : List GAcc, GoodAcc cur next m → GoodAcc cur next (rgInsert f t p m) := by
  intro m
  induction m with
  | nil =>
    intro _ g hg
    simp only [rgInsert, List.mem_singleton] at hg
    subst hg
    refine ⟨rfl, ?_⟩
    intro q hq
    simp only [List.mem_singleton] at hq
    subst hq
    exact ⟨f, t, hf, ht, hne, rfl⟩
  | cons g rest ih =>
    intro hm g' hg'
    unfold rgInsert at hg'
    by_cases hk : g.key = f ++ "→" ++ t
    · rw [if_pos hk] at hg'
      rcases List.mem_cons.mp hg' with rfl | hg''
      · have hg0 := hm g (List.mem_cons_self _ _)
        refine ⟨hg0.1, ?_⟩
        intro q hq
        have hq' : q ∈ insertUnique g.pts p := hq
        rw [mem_insertUnique] at hq'
        rcases hq' with hq'' | rfl
        · exact hg0.2 q hq''
        · exact ⟨f, t, hf, ht, hne, hk.symm⟩
      · exact hm g' (List.mem_cons_of_mem _ hg'')
    · rw [if_neg hk] at hg'
      rcases List.mem_cons.mp hg' with rfl | hg''
      · exact hm g' (List.mem_cons_self _ _)
      · exact ih (fun g'' hg0 => hm g'' (List.mem_cons_of_mem _ hg0)) g' hg''

theorem reassignStep_cases (cur next : List String) (m : List GAcc) (pt : PointRecord) :
    (reassignStep cur next m pt = m ∧ ¬ ReassignCond cur next pt.path) ∨
    (∃ f t, computeOwnerDevice pt.path cur = some f ∧
      computeOwnerDevice pt.path next = some t ∧ f ≠ t ∧
      reassignStep cur next m pt = rgInsert f t pt.path m) := by
  unfold reassignStep
  rcases h1 : computeOwnerDevice pt.path cur with _ | f
  · left
    refine ⟨rfl, ?_⟩
    rintro ⟨f', t', hf', _, _⟩
    rw [h1] at hf'
    cases hf'
  · rcases h2 : computeOwnerDevice pt.path next with _ | t
    · left
      refine ⟨rfl, ?_⟩
      rintro ⟨f', t', _, ht', _⟩
      rw [h2] at ht'
      cases ht'
    · by_cases hft : f = t
      · left
        subst hft
        constructor
        · show (if f = f then m else rgInsert f f pt.path m) = m
          rw [if_pos rfl]
        · rintro ⟨f', t', hf', ht', hne⟩
          rw [h1] at hf'
          rw [h2] at ht'
          cases hf'
          cases ht'
          exact hne rfl
      · right
        refine ⟨f, t, rfl, rfl, hft, ?_⟩
        show (if f = t then m else rgInsert f t pt.path m) = rgInsert f t pt.path m
        rw [if_neg hft]

theorem reassignFold_spec (cur next : List String) :
    ∀ (pts : List PointRecord) (m : List GAcc), GoodAcc cur next m →
      GoodAcc cur next (pts.foldl (reassignStep cur next) m) ∧
      (∀ q, InPts (pts.foldl (reassignStep cur next) m) q ↔
        InPts m q ∨ ∃ pt ∈ pts, pt.path = q ∧ ReassignCond cur next q) := by
  intro pts
  induction pts with
  | nil =>
    intro m hm
    exact ⟨hm, fun q => by simp⟩
  | cons pt rest ih =>
    intro m hm
    rw [List.foldl_cons]
    rcases reassignStep_cases cur next m pt with ⟨heq, hnc⟩ | ⟨f, t, hf, ht, hne, heq⟩
    · rw [heq]
      obtain ⟨hg, hiff⟩ := ih m hm
      refine ⟨hg, fun q => ?_⟩
      rw [hiff]
      constructor
      · rintro (h | ⟨pt', hpt', hpath, hc⟩)
        · exact Or.inl h
        · exact Or.inr ⟨pt', List.mem_cons_of_mem _ hpt', hpath, hc⟩
      · rintro (h | ⟨pt', hpt', hpath, hc⟩)
        · exact Or.inl h
        · rcases List.mem_cons.mp hpt' with rfl | hpt''
          · exact absurd (show ReassignCond cur next pt'.path by rw [hpath]; exact hc) hnc
          · exact Or.inr ⟨pt', hpt'', hpath, hc⟩
    · rw [heq]
      obtain ⟨hg, hiff⟩ := ih _ (goodAcc_rgInsert cur next f t pt.path hf ht hne m hm)
      refine ⟨hg, fun q => ?_⟩
      rw [hiff, inPts_rgInsert]
      constructor
      · rintro ((h | rfl) | ⟨pt', hpt', hpath, hc⟩)
        · exact Or.inl h
        · exact Or.inr ⟨pt, List.mem_cons_self _ _, rfl, ⟨f, t, hf, ht, hne⟩⟩
        · exact Or.inr ⟨pt', List.mem_cons_of_mem _ hpt', hpath, hc⟩
      · rintro (h | ⟨pt', hpt', hpath, hc⟩)
        · exact Or.inl (Or.inl h)
        · rcases List.mem_cons.mp hpt' with rfl | hpt''
          · exact Or.inl (Or.inr hpath.symm)
          · exact Or.inr ⟨pt', hpt'', hpath, hc⟩

theorem goodAcc_nil (cur next : List String) : GoodAcc cur next [] := by
  intro g hg
  exact absurd hg (List.not_mem_nil g)

theorem rgInsert_key_mem (f t p : String) :
    ∀ m : List GAcc, ∃ g ∈ rgInsert f t p m, g.key = f ++ "→" ++ t := by
  intro m
  induction m with
  | nil =>
    exact ⟨⟨f ++ "→" ++ t, f, t, [p]⟩, List.mem_singleton.mpr rfl, rfl⟩
  | cons g rest ih =>
    unfold rgInsert
    by_cases hk : g.key = f ++ "→" ++ t
    · rw [if_pos hk]
      exact ⟨{ g with pts := insertUnique g.pts p }, List.mem_cons_self _ _, hk⟩
    · rw [if_neg hk]
      obtain ⟨g', hg', hkey⟩ := ih
      exact ⟨g', List.mem_cons_of_mem _ hg', hkey⟩

theorem rgInsert_preserves_triples (f t p : String) :
    ∀ (m : List GAcc) (g₀ : GAcc), g₀ ∈ m →
      ∃ g₁ ∈ rgInsert f t p m,
        g₁.key = g₀.key ∧ g₁.fromP = g₀.fromP ∧ g₁.toP = g₀.toP := by
  intro m
  induction m with
  | nil =>
    intro g₀ h
    exact absurd h (List.not_mem_nil g₀)
  | cons g rest ih =>
    intro g₀ h
    unfold rgInsert
    by_cases hk : g.key = f ++ "→" ++ t
    · rw [if_pos hk]
      rcases List.mem_cons.mp h with rfl | h'
      · exact ⟨{ g₀ with pts := insertUnique g₀.pts p }, List.mem_cons_self _ _,
          rfl, rfl, rfl⟩
      · exact ⟨g₀, List.mem_cons_of_mem _ h', rfl, rfl, rfl⟩
    · rw [if_neg hk]
      rcases List.mem_cons.mp h with rfl | h'
      · exact ⟨g₀, List.mem_cons_self _ _, rfl, rfl, rfl⟩
      · obtain ⟨g₁, hg₁, he⟩ := ih g₀ h'
        exact ⟨g₁, List.mem_cons_of_mem _ hg₁, he⟩

theorem mem_rgInsert_cases (f t p : String) :
    ∀ (m : List GAcc) (g : GAcc), g ∈ rgInsert f t p m →
      (∃ g₀ ∈ m, g₀.key = g.key ∧ g₀.fromP = g.fromP ∧ g₀.toP = g.toP) ∨
      (g.key = f ++ "→" ++ t ∧ g.fromP = f ∧ g.toP = t ∧
        ∀ g₀ ∈ m, g₀.key ≠ f ++ "→" ++ t) := by
  intro m
  induction m with
  | nil =>
    intro g hg
    simp only [rgInsert, List.mem_singleton] at hg
    subst hg
    exact Or.inr ⟨rfl, rfl, rfl, fun g₀ h => absurd h (List.not_mem_nil g₀)⟩
  | cons g₁ rest ih =>
    intro g hg
    unfold rgInsert at hg
    by_cases hk : g₁.key = f ++ "→" ++ t
    · rw [if_pos hk] at hg
      rcases List.mem_cons.mp hg with rfl | hg'
      · exact Or.inl ⟨g₁, List.mem_cons_self _ _, rfl, rfl, rfl⟩
      · exact Or.inl ⟨g, List.mem_cons_of_mem _ hg', rfl, rfl, rfl⟩
    · rw [if_neg hk] at hg
      rcases List.mem_cons.mp hg with rfl | hg'
      · exact Or.inl ⟨g, List.mem_cons_self _ _, rfl, rfl, rfl⟩
      · rcases ih g hg' with ⟨g₀, hg₀, he⟩ | ⟨h1, h2, h3, h4⟩
        · exact Or.inl ⟨g₀, List.mem_cons_of_mem _ hg₀, he⟩
        · refine Or.inr ⟨h1, h2, h3, ?_⟩
          intro g₀ h0
          rcases List.mem_cons.mp h0 with rfl | h0'
          · exact hk
          · exact h4 g₀ h0'

theorem keyNodup_rgInsert (f t p : String) :
    ∀ m : List GAcc, List.Pairwise (fun a b : GAcc => a.key ≠ b.key) m →
      List.Pairwise (fun a b : GAcc => a.key ≠ b.key) (rgInsert f t p m) := by
  intro m
  induction m with
  | nil =>
    intro _
    exact List.Pairwise.cons (fun b hb => absurd hb (List.not_mem_nil b))
      List.Pairwise.nil
  | cons g rest ih =>
    intro h
    rw [List.pairwise_cons] at h
    obtain ⟨hg, hrest⟩ := h
    unfold rgInsert
    by_cases hk : g.key = f ++ "→" ++ t
    · rw [if_pos hk, List.pairwise_cons]
      exact ⟨fun b hb => hg b hb, hrest⟩
    · rw [if_neg hk, List.pairwise_cons]
      refine ⟨?_, ih hrest⟩
      intro b hb
      rcases mem_rgInsert_cases f t p rest b hb with ⟨g₀, hg₀, he, _, _⟩ | ⟨h1, _, _, _⟩
      · rw [← he]
        exact hg g₀ hg₀
      · rw [h1]
        exact hk

theorem keyNodup_reassignStep (cur next : List String) (m : List GAcc) (pt : PointRecord)
    (h : List.Pairwise (fun a b : GAcc => a.key ≠ b.key) m) :
    List.Pairwise (fun a b : GAcc => a.key ≠ b.key) (reassignStep cur next m pt) := by
  rcases reassignStep_cases cur next m pt with ⟨heq, _⟩ | ⟨f, t, _, _, _, heq⟩
  · rw [heq]
    exact h
  · rw [heq]
    exact keyNodup_rgInsert f t pt.path m h

theorem keyNodup_reassignFold (cur next : List String) :
    ∀ (pts : List PointRecord) (m : List GAcc),
      List.Pairwise (fun a b : GAcc => a.key ≠ b.key) m →
      List.Pairwise (fun a b : GAcc => a.key ≠ b.key)
        (pts.foldl (reassignStep cur next) m) := by
  intro pts
  induction pts with
  | nil =>
    intro m h
    exact h
  | cons pt rest ih =>
    intro m h
    rw [List.foldl_cons]
    exact ih _ (keyNodup_reassignStep cur next m pt h)

theorem reassignFold_first (cur next : List String) :
    ∀ (pts : List PointRecord) (m : List GAcc),
      ∀ g ∈ pts.foldl (reassignStep cur next) m,
        (∃ g₀ ∈ m, g₀.key = g.key ∧ g₀.fromP = g.fromP ∧ g₀.toP = g.toP) ∨
        ((∀ g₀ ∈ m, g₀.key ≠ g.fromP ++ "→" ++ g.toP) ∧
          ∃ l₁ pt l₂, pts = l₁ ++ pt :: l₂ ∧
            computeOwnerDevice pt.path cur = some g.fromP ∧
            computeOwnerDevice pt.path next = some g.toP ∧ g.fromP ≠ g.toP ∧
            ∀ pt' ∈ l₁, ∀ f t, computeOwnerDevice pt'.path cur = some f →
              computeOwnerDevice pt'.path next = some t → f ≠ t →
              f ++ "→" ++ t ≠ g.fromP ++ "→" ++ g.toP) := by
  intro pts
  induction pts with
  | nil =>
    intro m g hg
    exact Or.inl ⟨g, hg, rfl, rfl, rfl⟩
  | cons pt rest ih =>
    intro m g hg
    rw [List.foldl_cons] at hg
    rcases ih (reassignStep cur next m pt) g hg with
      ⟨g₀, hg₀, hek, hef, het⟩ | ⟨hnokey, l₁, pt', l₂, hdec, hf', ht', hne', hfirst⟩
    · rcases reassignStep_cases cur next m pt with ⟨heq, _⟩ | ⟨f, t, hf, ht, hne, heq⟩
      · rw [heq] at hg₀
        exact Or.inl ⟨g₀, hg₀, hek, hef, het⟩
      · rw [heq] at hg₀
        rcases mem_rgInsert_cases f t pt.path m g₀ hg₀ with
          ⟨g₁, hg₁, h1, h2, h3⟩ | ⟨_, h2, h3, h4⟩
        · exact Or.inl ⟨g₁, hg₁, h1.trans hek, h2.trans hef, h3.trans het⟩
        · right
          refine ⟨?_, [], pt, rest, rfl, ?_, ?_, ?_, ?_⟩
          · intro g₁ hg₁
            rw [← hef, ← het, h2, h3]
            exact h4 g₁ hg₁
          · rw [← hef, h2]
            exact hf
          · rw [← het, h3]
            exact ht
          · rw [← hef, ← het, h2, h3]
            exact hne
          · intro pt'' h
            exact absurd h (List.not_mem_nil pt'')
    · right
      have hKm : ∀ g₀ ∈ m, g₀.key ≠ g.fromP ++ "→" ++ g.toP := by
        intro g₀ hg₀
        rcases reassignStep_cases cur next m pt with ⟨heq, _⟩ | ⟨f, t, _, _, _, heq⟩
        · apply hnokey
          rw [heq]
          exact hg₀
        · obtain ⟨g₁, hg₁, h1, _, _⟩ := rgInsert_preserves_triples f t pt.path m g₀ hg₀
          rw [← h1]
          apply hnokey
          rw [heq]
          exact hg₁
      refine ⟨hKm, pt :: l₁, pt', l₂, by rw [hdec]; rfl, hf', ht', hne', ?_⟩
      intro pt'' hmem f t hfc htc hftne hkey
      rcases List.mem_cons.mp hmem with heqpt | hmem'
      · rw [heqpt] at hfc htc
        rcases reassignStep_cases cur next m pt with ⟨_, hnc⟩ | ⟨f₀, t₀, hf₀, ht₀, _, heq⟩
        · exact hnc ⟨f, t, hfc, htc, hftne⟩
        · have hf1 : f₀ = f := by
            rw [hf₀] at hfc
            exact Option.some.inj hfc
          have ht1 : t₀ = t := by
            rw [ht₀] at htc
            exact Option.some.inj htc
          obtain ⟨g₁, hg₁, hk₁⟩ := rgInsert_key_mem f₀ t₀ pt.path m
          refine hnokey g₁ ?_ ?_
          · rw [heq]
            exact hg₁
          · rw [hk₁, hf1, ht1]
            exact hkey
      · exact hfirst pt'' hmem' f t hfc htc hftne hkey

/-- C5 counterexample: with the two points `a/→a→/a/z/q` and
`a→/a/z/w`, current devices `["a", "a→/a/"]` and next devices
`["/a/→a→/a/z", "a→/a/z"]`, the owner pairs of the two points are
`("a", "/a/→a→/a/z")` and `("a→/a/", "a→/a/z")` — two different pairs —
yet both points land in one single group recorded as
`("a", "/a/→a→/a/z")`, because the group key
`from ++ "→" ++ to` is the same string for both pairs.  So the
computation does not group reported points by the (previous owner, next
owner) pair. -/
theorem c5_counterexample :
    computeReassignmentGroups
        [⟨"a/→a→/a/z/q", "t"⟩, ⟨"a→/a/z/w", "t"⟩]
        ["a", "a→/a/"] ["/a/→a→/a/z", "a→/a/z"]
      = [⟨some "a", some "/a/→a→/a/z", ["a/→a→/a/z/q", "a→/a/z/w"]⟩]
    ∧ computeOwnerDevice "a→/a/z/w" ["a", "a→/a/"] = some "a→/a/"
    ∧ ("a→/a/" : String) ≠ "a"
    ∧ computeOwnerDevice "a→/a/z/w" ["/a/→a→/a/z", "a→/a/z"] = some "a→/a/z"
    ∧ ("a→/a/z" : String) ≠ "/a/→a→/a/z" := by decide

/-- C5 (amended): a point path is reported exactly when its owners under
the current and the next device list are both non-none and differ;
reported points are grouped by the string key
`previousOwner ++ "→" ++ nextOwner` (which coincides with grouping by
the owner pair whenever distinct pairs have distinct keys, e.g. when
device paths contain no `"→"`): distinct output groups have distinct
keys — so all reported points sharing a key land in one single group —
every point of a group has an owner pair with the group's key, each
group records the owner pair of the first point inserted with its key
(no earlier point in the point list has an owner pair with that key),
and each group's point paths are sorted ascending. -/
theorem c5_reassignment_groups (points : List PointRecord) (cur next : List String) :
    (∀ p, (∃ g ∈ computeReassignmentGroups points cur next, p ∈ g.pointPaths) ↔
      ((∃ pt ∈ points, pt.path = p) ∧
        ∃ f t, computeOwnerDevice p cur = some f ∧
          computeOwnerDevice p next = some t ∧ f ≠ t))
    ∧ (∀ g ∈ computeReassignmentGroups points cur next,
        ∃ f₀ t₀, g.fromDevicePath = some f₀ ∧ g.toDevicePath = some t₀ ∧
          ∀ p ∈ g.pointPaths,
            ∃ f t, computeOwnerDevice p cur = some f ∧
              computeOwnerDevice p next = some t ∧ f ≠ t ∧
              f ++ "→" ++ t = f₀ ++ "→" ++ t₀)
    ∧ (∀ g ∈ computeReassignmentGroups points cur next,
        g.pointPaths.Sorted strLe)
    ∧ List.Pairwise (fun g₁ g₂ => groupSortKey g₁ ≠ groupSortKey g₂)
        (computeReassignmentGroups points cur next)
    ∧ (∀ g ∈ computeReassignmentGroups points cur next,
        ∃ f₀ t₀, g.fromDevicePath = some f₀ ∧ g.toDevicePath = some t₀ ∧
          ∃ l₁ pt l₂, points = l₁ ++ pt :: l₂ ∧
            computeOwnerDevice pt.path cur = some f₀ ∧
            computeOwnerDevice pt.path next = some t₀ ∧ f₀ ≠ t₀ ∧
            ∀ pt' ∈ l₁, ∀ f t, computeOwnerDevice pt'.path cur = some f →
              computeOwnerDevice pt'.path next = some t → f ≠ t →
              f ++ "→" ++ t ≠ f₀ ++ "→" ++ t₀) := by
  obtain ⟨hGood, hiff⟩ :=
    reassignFold_spec cur next points [] (goodAcc_nil cur next)
  refine ⟨?_, ?_, ?_, ?_, ?_⟩
  · intro p
    have hmem : (∃ g ∈ computeReassignmentGroups points cur next, p ∈ g.pointPaths) ↔
        InPts (points.foldl (reassignStep cur next) []) p := by
      unfold computeReassignmentGroups
      constructor
      · rintro ⟨g', hg', hp⟩
        rw [List.mem_insertionSort] at hg'
        obtain ⟨g, hg, rfl⟩ := List.mem_map.mp hg'
        have hp' : p ∈ sortStrings g.pts := hp
        rw [mem_sortStrings] at hp'
        exact ⟨g, hg, hp'⟩
      · rintro ⟨g, hg, hp⟩
        exact ⟨RGroup.mk (some g.fromP) (some g.toP) (sortStrings g.pts),
          (List.mem_insertionSort _).mpr (List.mem_map_of_mem _ hg),
          mem_sortStrings.mpr hp⟩
    rw [hmem, hiff p]
    constructor
    · rintro (h | ⟨pt, hpt, hpath, hc⟩)
      · exact absurd h (inPts_nil p)
      · exact ⟨⟨pt, hpt, hpath⟩, hc⟩
    · rintro ⟨⟨pt, hpt, hpath⟩, hc⟩
      exact Or.inr ⟨pt, hpt, hpath, hc⟩
  · intro g' hg'
    unfold computeReassignmentGroups at hg'
    rw [List.mem_insertionSort] at hg'
    obtain ⟨g, hg, rfl⟩ := List.mem_map.mp hg'
    obtain ⟨hkey, hpts⟩ := hGood g hg
    refine ⟨g.fromP, g.toP, rfl, rfl, ?_⟩
    intro p hp
    have hp' : p ∈ sortStrings g.pts := hp
    rw [mem_sortStrings] at hp'
    obtain ⟨f, t, hf, ht, hne, hk⟩ := hpts p hp'
    exact ⟨f, t, hf, ht, hne, by rw [hk, hkey]⟩
  · intro g' hg'
    unfold computeReassignmentGroups at hg'
    rw [List.mem_insertionSort] at hg'
    obtain ⟨g, hg, rfl⟩ := List.mem_map.mp hg'
    exact sorted_sortStrings g.pts
  · unfold computeReassignmentGroups
    refine ((List.perm_insertionSort _ _).pairwise_iff ?_).mpr ?_
    · intro a b hab e
      exact hab e.symm
    · rw [List.pairwise_map]
      refine List.Pairwise.imp_of_mem ?_
        (keyNodup_reassignFold cur next points [] List.Pairwise.nil)
      intro a b ha hb hab
      show a.fromP ++ "→" ++ a.toP ≠ b.fromP ++ "→" ++ b.toP
      rw [← (hGood a ha).1, ← (hGood b hb).1]
      exact hab
  · intro g' hg'
    unfold computeReassignmentGroups at hg'
    rw [List.mem_insertionSort] at hg'
    obtain ⟨g, hg, rfl⟩ := List.mem_map.mp hg'
    rcases reassignFold_first cur next points [] g hg with
      ⟨g₀, hg₀, _⟩ | ⟨_, l₁, pt, l₂, hdec, hf, ht, hne, hfirst⟩
    · exact absurd hg₀ (List.not_mem_nil g₀)
    · exact ⟨g.fromP, g.toP, rfl, rfl, l₁, pt, l₂, hdec, hf, ht, hne, hfirst⟩

/-- C5 witness: with the single point `root/a/p`, current devices
`[root/a]` and next devices `[root/a/p]`, the point is reported. -/
theorem c5_witness :
    ∃ g ∈ computeReassignmentGroups [⟨"root/a/p", "t"⟩] ["root/a"] ["root/a/p"],
      "root/a/p" ∈ g.pointPaths :=
  ((c5_reassignment_groups [⟨"root/a/p", "t"⟩] ["root/a"] ["root/a/p"]).1
    "root/a/p").mpr
    ⟨⟨⟨"root/a/p", "t"⟩, by decide, rfl⟩,
      "root/a", "root/a/p", by decide, by decide, by decide⟩

/-! Helper lemmas about the hidden-folder normalizer. -/

theorem mem_hiddenCandidates {tp inc : List String} {p : String} :
    p ∈ hiddenCandidates tp inc ↔
      (∃ q ∈ inc, jsTrim q = p) ∧ p ≠ "" ∧ p ≠ "root" ∧ (tp ≠ [] → p ∈ tp) := by
  unfold hiddenCandidates
  rw [List.mem_filter, List.mem_filter, mem_jsDedup, List.mem_filter]
  constructor
  · rintro ⟨⟨⟨h3, hne⟩, hroot⟩, htree⟩
    obtain ⟨q, hq, hqt⟩ := List.mem_map.mp h3
    refine ⟨⟨q, hq, hqt⟩, by simpa using hne, by simpa using hroot, ?_⟩
    intro htp
    rw [if_neg (by simpa [List.isEmpty_iff] using htp)] at htree
    simpa using htree
  · rintro ⟨⟨q, hq, hqt⟩, hne, hroot, htree⟩
    refine ⟨⟨⟨List.mem_map.mpr ⟨q, hq, hqt⟩, decide_eq_true hne⟩, decide_eq_true hroot⟩, ?_⟩
    by_cases h : tp = []
    · subst h; rfl
    · rw [if_neg (by simpa [List.isEmpty_iff] using h)]
      exact decide_eq_true (htree h)

theorem coveredBy_eq_true_iff {cands : List String} {p : String} :
    coveredBy cands p = true ↔
      ∃ q ∈ cands, q ≠ p ∧
        (getPathRelation q p = .ancestor ∨ getPathRelation q p = .same) := by
  unfold coveredBy
  simp only [List.any_eq_true, Bool.and_eq_true, Bool.or_eq_true, decide_eq_true_eq]

theorem mem_normalizeHidden {tp inc : List String} {p : String} :
    p ∈ normalizeHiddenFolderPaths tp inc ↔
      p ∈ hiddenCandidates tp inc ∧
        ¬∃ q ∈ hiddenCandidates tp inc, q ≠ p ∧
          (getPathRelation q p = .ancestor ∨ getPathRelation q p = .same) := by
  unfold normalizeHiddenFolderPaths
  rw [mem_sortStrings, List.mem_filter, mem_sortStrings]
  have hdom : (∃ q ∈ sortStrings (hiddenCandidates tp inc), q ≠ p ∧
        (getPathRelation q p = .ancestor ∨ getPathRelation q p = .same)) ↔
      ∃ q ∈ hiddenCandidates tp inc, q ≠ p ∧
        (getPathRelation q p = .ancestor ∨ getPathRelation q p = .same) := by
    constructor <;> rintro ⟨q, hq, hrest⟩
    · exact ⟨q, mem_sortStrings.mp hq, hrest⟩
    · exact ⟨q, mem_sortStrings.mpr hq, hrest⟩
  constructor
  · rintro ⟨hmem, hcov⟩
    refine ⟨hmem, fun hex => ?_⟩
    rw [Bool.not_eq_true'] at hcov
    rw [← hdom] at hex
    rw [coveredBy_eq_true_iff.mpr hex] at hcov
    cases hcov
  · rintro ⟨hmem, hncov⟩
    refine ⟨hmem, ?_⟩
    rw [Bool.not_eq_true']
    cases hcb : coveredBy (sortStrings (hiddenCandidates tp inc)) p with
    | false => rfl
    | true => exact absurd (hdom.mp (coveredBy_eq_true_iff.mp hcb)) hncov

theorem nodup_hiddenCandidates (tp inc : List String) :
    (hiddenCandidates tp inc).Nodup := by
  unfold hiddenCandidates
  exact ((nodup_jsDedup _).filter _).filter _

theorem nodup_normalizeHidden (tp inc : List String) :
    (normalizeHiddenFolderPaths tp inc).Nodup := by
  unfold normalizeHiddenFolderPaths
  exact nodup_sortStrings ((nodup_sortStrings (nodup_hiddenCandidates tp inc)).filter _)

theorem normalizeHidden_pair_free (tp inc : List String) :
    ∀ p ∈ normalizeHiddenFolderPaths tp inc, ∀ q ∈ normalizeHiddenFolderPaths tp inc,
      q ≠ p → getPathRelation q p ≠ .ancestor ∧ getPathRelation q p ≠ .same := by
  intro p hp q hq hqp
  obtain ⟨_, hncov⟩ := mem_normalizeHidden.mp hp
  obtain ⟨hqC, _⟩ := mem_normalizeHidden.mp hq
  constructor
  · intro hrel
    exact hncov ⟨q, hqC, hqp, Or.inl hrel⟩
  · intro hrel
    exact hncov ⟨q, hqC, hqp, Or.inr hrel⟩

theorem normalizeHidden_idem (tp inc : List String) :
    normalizeHiddenFolderPaths tp (normalizeHiddenFolderPaths tp inc)
      = normalizeHiddenFolderPaths tp inc := by
  have hsub : ∀ p ∈ normalizeHiddenFolderPaths tp inc, p ∈ hiddenCandidates tp inc :=
    fun p hp => (mem_normalizeHidden.mp hp).1
  have htrim : ∀ p ∈ normalizeHiddenFolderPaths tp inc, jsTrim p = p := by
    intro p hp
    obtain ⟨⟨q, _, hqt⟩, _⟩ := mem_hiddenCandidates.mp (hsub p hp)
    rw [← hqt, jsTrim_idem]
  have hne : ∀ p ∈ normalizeHiddenFolderPaths tp inc, p ≠ "" :=
    fun p hp => (mem_hiddenCandidates.mp (hsub p hp)).2.1
  have hroot : ∀ p ∈ normalizeHiddenFolderPaths tp inc, p ≠ "root" :=
    fun p hp => (mem_hiddenCandidates.mp (hsub p hp)).2.2.1
  have htree : ∀ p ∈ normalizeHiddenFolderPaths tp inc, tp ≠ [] → p ∈ tp :=
    fun p hp => (mem_hiddenCandidates.mp (hsub p hp)).2.2.2
  have hnd : (normalizeHiddenFolderPaths tp inc).Nodup := nodup_normalizeHidden tp inc
  have hsorted : (normalizeHiddenFolderPaths tp inc).Sorted strLe := by
    unfold normalizeHiddenFolderPaths
    exact sorted_sortStrings _
  have hH2 : hiddenCandidates tp (normalizeHiddenFolderPaths tp inc)
      = normalizeHiddenFolderPaths tp inc := by
    have hmap : List.map jsTrim (normalizeHiddenFolderPaths tp inc)
        = normalizeHiddenFolderPaths tp inc := by
      conv_rhs => rw [← List.map_id (normalizeHiddenFolderPaths tp inc)]
      exact List.map_congr_left htrim
    unfold hiddenCandidates
    rw [hmap,
      List.filter_eq_self.mpr (fun p hp => decide_eq_true (hne p hp)),
      jsDedup_eq_self hnd,
      List.filter_eq_self.mpr (fun p hp => decide_eq_true (hroot p hp))]
    apply List.filter_eq_self.mpr
    intro p hp
    by_cases h : tp = []
    · subst h; rfl
    · rw [if_neg (by simpa [List.isEmpty_iff] using h)]
      exact decide_eq_true (htree p hp h)
  have hsort : sortStrings (normalizeHiddenFolderPaths tp inc)
      = normalizeHiddenFolderPaths tp inc := sortStrings_eq_self hsorted
  have hfc : (normalizeHiddenFolderPaths tp inc).filter
      (fun p => !(coveredBy (normalizeHiddenFolderPaths tp inc) p))
      = normalizeHiddenFolderPaths tp inc := by
    apply List.filter_eq_self.mpr
    intro p hp
    cases hcb : coveredBy (normalizeHiddenFolderPaths tp inc) p with
    | false => rfl
    | true =>
      obtain ⟨q, hq, hqp, hrel⟩ := coveredBy_eq_true_iff.mp hcb
      exact absurd ⟨q, hsub q hq, hqp, hrel⟩ (mem_normalizeHidden.mp hp).2
  have hdef : normalizeHiddenFolderPaths tp (normalizeHiddenFolderPaths tp inc)
      = sortStrings
          ((sortStrings (hiddenCandidates tp (normalizeHiddenFolderPaths tp inc))).filter
            (fun p =>
              !(coveredBy
                (sortStrings (hiddenCandidates tp (normalizeHiddenFolderPaths tp inc))) p))) :=
    rfl
  rw [hdef, hH2, hsort, hfc, hsort]

/-- C8 counterexample: with an empty folder tree, the candidate `"x"` is
not present in the current folder tree, yet `normalizeHiddenFolderPaths`
keeps it (the presence filter is skipped when the tree has no paths), so
the claim that any path no longer present in the tree is discarded fails. -/
theorem c8_counterexample :
    normalizeHiddenFolderPaths [] ["x"] = ["x"]
    ∧ ("x" : String) ∉ ([] : List String) := by decide

/-- C8 (amended): `normalizeHiddenFolderPaths` trims and deduplicates
the input, discards empty strings and the root path itself, discards any
path not present in the current folder tree whenever the tree has at
least one path (when the folder tree is empty the presence filter is
skipped), removes every candidate covered by — same as, or descendant
of — another candidate, and returns the result sorted ascending;
consequently applying it twice equals applying it once and its output
never contains two paths where one covers the other. -/
theorem c8_hidden_normalizer (treeFolderPaths incoming : List String) :
    (∀ p, p ∈ normalizeHiddenFolderPaths treeFolderPaths incoming ↔
      ((∃ q ∈ incoming, jsTrim q = p) ∧ p ≠ "" ∧ p ≠ "root"
        ∧ (treeFolderPaths ≠ [] → p ∈ treeFolderPaths)
        ∧ ¬∃ q ∈ hiddenCandidates treeFolderPaths incoming, q ≠ p ∧
            (getPathRelation q p = .ancestor ∨ getPathRelation q p = .same)))
    ∧ (normalizeHiddenFolderPaths treeFolderPaths incoming).Sorted strLe
    ∧ normalizeHiddenFolderPaths treeFolderPaths
        (normalizeHiddenFolderPaths treeFolderPaths incoming)
      = normalizeHiddenFolderPaths treeFolderPaths incoming
    ∧ (∀ p ∈ normalizeHiddenFolderPaths treeFolderPaths incoming,
        ∀ q ∈ normalizeHiddenFolderPaths treeFolderPaths incoming,
        q ≠ p → getPathRelation q p ≠ .ancestor ∧ getPathRelation q p ≠ .same) := by
  refine ⟨?_, ?_, normalizeHidden_idem _ _, normalizeHidden_pair_free _ _⟩
  · intro p
    rw [mem_normalizeHidden, mem_hiddenCandidates]
    tauto
  · unfold normalizeHiddenFolderPaths
    exact sorted_sortStrings _

/-- C8 witness: the membership characterization applied at the tree
`[root, root/A, root/A/B]`, input `[root/A/B, root/A]` and path
`root/A` (kept: present in the tree, not covered). -/
theorem c8_witness :
    "root/A" ∈ normalizeHiddenFolderPaths ["root", "root/A", "root/A/B"]
      ["root/A/B", "root/A"] :=
  ((c8_hidden_normalizer ["root", "root/A", "root/A/B"] ["root/A/B", "root/A"]).1
    "root/A").mpr
    ⟨⟨"root/A", by decide, by decide⟩, by decide, by decide,
      fun _ => by decide, by decide⟩

/-! Helper lemmas about the Device-Set invariant. -/

theorem invariant_of_noAnc {l : List String}
    (h : ∀ x ∈ l, ∀ y ∈ l, getPathRelation x y ≠ .ancestor) : DeviceSetInvariant l := by
  intro a ha b hb
  refine ⟨h a ha b hb, ?_⟩
  intro hd
  exact h b hb a ha (rel_anc_of_desc hd)

theorem planToAdd_subset {u : List String} : ∀ p ∈ planToAdd u, p ∈ u :=
  fun p hp => (List.mem_filter.mp hp).1

theorem planToAdd_no_anc {u : List String} :
    ∀ a ∈ planToAdd u, ∀ b ∈ u, getPathRelation a b ≠ .ancestor := by
  intro a ha b hb hrel
  obtain ⟨_, hcond⟩ := List.mem_filter.mp ha
  rw [Bool.not_eq_true'] at hcond
  by_cases hab : b = a
  · subst hab
    exact (getPathRelation_self_ne _).1 hrel
  · have hany : u.any
        (fun o => decide (o ≠ a) && decide (getPathRelation a o = .ancestor)) = true :=
      List.any_eq_true.mpr ⟨b, hb, by
        rw [Bool.and_eq_true]
        exact ⟨decide_eq_true hab, decide_eq_true hrel⟩⟩
    rw [hcond] at hany
    cases hany

theorem conflictsWith_iff {e inc : String} :
    conflictsWith e inc = true ↔
      getPathRelation e inc = .ancestor ∨ getPathRelation e inc = .descendant := by
  unfold conflictsWith
  simp only [Bool.or_eq_true, decide_eq_true_eq]

theorem mem_planToRemoveU {dp A : List String} {x : String} :
    x ∈ planToRemoveU dp A ↔ x ∈ dp ∧ ∃ inc ∈ A, conflictsWith x inc = true := by
  unfold planToRemoveU
  rw [List.mem_filter, List.any_eq_true]

theorem mem_applyDeviceChangeFn {prev add remove : List String} {x : String} :
    x ∈ applyDeviceChangeFn prev add remove ↔ (x ∈ prev ∧ x ∉ remove) ∨ x ∈ add := by
  unfold applyDeviceChangeFn
  rw [mem_foldl_insertUnique, mem_jsDedup, List.mem_filter]
  simp only [decide_eq_true_eq]

theorem mem_addDevicesFn {prev add : List String} {x : String} :
    x ∈ addDevicesFn prev add ↔ x ∈ prev ∨ x ∈ add := by
  unfold addDevicesFn
  by_cases h : add.isEmpty
  · rw [if_pos h, List.isEmpty_iff.mp h]
    simp
  · rw [if_neg h, mem_foldl_insertUnique, mem_jsDedup]

theorem invariant_union' (u dp : List String) (Rem : String → Prop)
    (hInv : DeviceSetInvariant dp)
    (hRem : ∀ x ∈ dp, ¬ Rem x → ∀ inc ∈ planToAdd u, conflictsWith x inc = false) :
    ∀ x, ((x ∈ dp ∧ ¬ Rem x) ∨ x ∈ planToAdd u) →
      ∀ y, ((y ∈ dp ∧ ¬ Rem y) ∨ y ∈ planToAdd u) →
        getPathRelation x y ≠ .ancestor := by
  rintro x (⟨hx, hxr⟩ | hx) y (⟨hy, hyr⟩ | hy)
  · exact (hInv x hx y hy).1
  · intro hrel
    have hfalse := hRem x hx hxr y hy
    have htrue : conflictsWith x y = true := conflictsWith_iff.mpr (Or.inl hrel)
    rw [hfalse] at htrue
    cases htrue
  · intro hrel
    have hfalse := hRem y hy hyr x hx
    have htrue : conflictsWith y x = true :=
      conflictsWith_iff.mpr (Or.inr (rel_desc_of_anc hrel))
    rw [hfalse] at htrue
    cases htrue
  · exact planToAdd_no_anc x hx y (planToAdd_subset y hy)

theorem invariant_applyPlan (dp sel : List String) (pts : List PointRecord)
    (hInv : DeviceSetInvariant dp) :
    DeviceSetInvariant (applyDeviceChangeFn dp (conflictPlanOf dp sel pts).toAdd
      (conflictPlanOf dp sel pts).toRemove) := by
  apply invariant_of_noAnc
  intro x hx y hy
  rw [mem_applyDeviceChangeFn] at hx hy
  have hconv : ∀ z : String,
      ((z ∈ dp ∧ z ∉ (conflictPlanOf dp sel pts).toRemove) ∨
        z ∈ (conflictPlanOf dp sel pts).toAdd) →
      ((z ∈ dp ∧ ¬ z ∈ planToRemoveU dp (planToAdd (jsDedup sel))) ∨
        z ∈ planToAdd (jsDedup sel)) := by
    rintro z (⟨hz, hzr⟩ | hz)
    · refine Or.inl ⟨hz, fun hc => hzr ?_⟩
      exact mem_sortStrings.mpr hc
    · exact Or.inr (mem_sortStrings.mp hz)
  have hRem : ∀ z ∈ dp, ¬ z ∈ planToRemoveU dp (planToAdd (jsDedup sel)) →
      ∀ inc ∈ planToAdd (jsDedup sel), conflictsWith z inc = false := by
    intro z hz hzr inc hinc
    cases hcw : conflictsWith z inc with
    | false => rfl
    | true => exact absurd (mem_planToRemoveU.mpr ⟨hz, inc, hinc, hcw⟩) hzr
  exact invariant_union' (jsDedup sel) dp
    (fun z => z ∈ planToRemoveU dp (planToAdd (jsDedup sel))) hInv hRem
    x (hconv x hx) y (hconv y hy)

theorem invariant_markSelection (s : AppState) (hInv : DeviceSetInvariant s.devicePaths) :
    DeviceSetInvariant (markSelectionAsDevices s).devicePaths := by
  unfold markSelectionAsDevices
  by_cases h0 : s.selectedPaths.isEmpty
  · rw [if_pos h0]
    exact hInv
  · rw [if_neg h0]
    by_cases hbr : planToRemoveU s.devicePaths (planToAdd (jsDedup s.selectedPaths)) ≠ [] ∨
        planDropped (jsDedup s.selectedPaths) ≠ []
    · rw [if_pos hbr]
      exact hInv
    · rw [if_neg hbr]
      push_neg at hbr
      obtain ⟨hrm, _⟩ := hbr
      apply invariant_of_noAnc
      intro x hx y hy
      have hx' : x ∈ addDevicesFn s.devicePaths (planToAdd (jsDedup s.selectedPaths)) := hx
      have hy' : y ∈ addDevicesFn s.devicePaths (planToAdd (jsDedup s.selectedPaths)) := hy
      rw [mem_addDevicesFn] at hx' hy'
      have hRem : ∀ z ∈ s.devicePaths, ¬ False →
          ∀ inc ∈ planToAdd (jsDedup s.selectedPaths), conflictsWith z inc = false := by
        intro z hz _ inc hinc
        cases hcw : conflictsWith z inc with
        | false => rfl
        | true =>
          have : z ∈ planToRemoveU s.devicePaths (planToAdd (jsDedup s.selectedPaths)) :=
            mem_planToRemoveU.mpr ⟨hz, inc, hinc, hcw⟩
          rw [hrm] at this
          cases this
      refine invariant_union' (jsDedup s.selectedPaths) s.devicePaths (fun _ => False)
        hInv hRem x ?_ y ?_
      · rcases hx' with h | h
        · exact Or.inl ⟨h, not_false⟩
        · exact Or.inr h
      · rcases hy' with h | h
        · exact Or.inl ⟨h, not_false⟩
        · exact Or.inr h

theorem invariant_removeFilter (dp paths : List String)
    (hInv : DeviceSetInvariant dp) :
    DeviceSetInvariant (dp.filter (fun p => decide (p ∉ paths))) := by
  intro a ha b hb
  exact hInv a (List.mem_filter.mp ha).1 b (List.mem_filter.mp hb).1

theorem invariant_confirmMerge (s : AppState) (freshId : String)
    (hInv : DeviceSetInvariant s.devicePaths)
    (hside : ∀ pm, s.pendingMerge = some pm →
      ∀ m ∈ pm.memberPaths, ∀ x, (x ∈ s.devicePaths ∨ x ∈ pm.memberPaths) →
        getPathRelation m x ≠ .ancestor ∧ getPathRelation m x ≠ .descendant) :
    DeviceSetInvariant (confirmMergeDevices s freshId).devicePaths := by
  rcases hpm : s.pendingMerge with _ | pm
  · rw [show confirmMergeDevices s freshId = s from by
      unfold confirmMergeDevices; rw [hpm]]
    exact hInv
  · rw [show confirmMergeDevices s freshId
        = if jsTrim s.mergeName = "" then s else mergedConfirmState s pm freshId from by
      unfold confirmMergeDevices; rw [hpm]]
    by_cases hname : jsTrim s.mergeName = ""
    · rw [if_pos hname]
      exact hInv
    · rw [if_neg hname]
      apply invariant_of_noAnc
      intro x hx y hy
      have hx' : x ∈ confirmMergeDevicePaths s.devicePaths pm.memberPaths := hx
      have hy' : y ∈ confirmMergeDevicePaths s.devicePaths pm.memberPaths := hy
      unfold confirmMergeDevicePaths at hx' hy'
      rw [mem_foldl_insertUnique, mem_jsDedup, mem_jsDedup] at hx' hy'
      have hside' := hside pm hpm
      rcases hx' with hx' | hx' <;> rcases hy' with hy' | hy'
      · exact (hInv x hx' y hy').1
      · intro hrel
        exact (hside' y hy' x (Or.inl hx')).2 (rel_desc_of_anc hrel)
      · exact (hside' x hx' y (Or.inl hy')).1
      · exact (hside' x hx' y (Or.inr hy')).1

/-- C1 counterexample: from the state with device set `[root/a/b]`
(which satisfies the invariant) and a staged merge of `root/a` and
`root/c`, confirming the merge adds `root/a` — a strict ancestor of the
existing device `root/a/b` — to the Device Set, violating the
invariant.  Merge confirmation is a Device-Set mutation that bypasses
the Conflict Planner. -/
theorem c1_counterexample :
    DeviceSetInvariant ["root/a/b"]
    ∧ ¬ DeviceSetInvariant
        ((applyMutation ⟨["root/a/b"], [], [], [], [], [], none, none, ""⟩
          (.mergeConfirm ["root/a", "root/c"] "m" "id1")).devicePaths) := by decide

/-- C1 (amended): the Device-Set invariant is preserved by applying a
conflict plan computed by the Conflict Planner from the same device
set, by `markSelectionAsDevices` itself (both its immediate-apply and
its staging branch), by device removal, and by merge confirmation
provided every staged member path is in no ancestor/descendant relation
with any current device or staged member; without that proviso merge
confirmation can break the invariant (see the counterexample). -/
theorem c1_invariant_preservation :
    (∀ (devicePaths selection : List String) (points : List PointRecord),
      DeviceSetInvariant devicePaths →
      DeviceSetInvariant (applyDeviceChangeFn devicePaths
        (conflictPlanOf devicePaths selection points).toAdd
        (conflictPlanOf devicePaths selection points).toRemove))
    ∧ (∀ s : AppState, DeviceSetInvariant s.devicePaths →
        DeviceSetInvariant (markSelectionAsDevices s).devicePaths)
    ∧ (∀ s : AppState, ∀ paths, DeviceSetInvariant s.devicePaths →
        DeviceSetInvariant (removeDevices s paths).devicePaths)
    ∧ (∀ (s : AppState) (freshId : String), DeviceSetInvariant s.devicePaths →
        (∀ pm, s.pendingMerge = some pm →
          ∀ m ∈ pm.memberPaths, ∀ x, (x ∈ s.devicePaths ∨ x ∈ pm.memberPaths) →
            getPathRelation m x ≠ .ancestor ∧ getPathRelation m x ≠ .descendant) →
        DeviceSetInvariant (confirmMergeDevices s freshId).devicePaths) := by
  refine ⟨invariant_applyPlan, invariant_markSelection, ?_, invariant_confirmMerge⟩
  intro s paths hInv
  unfold removeDevices
  by_cases h : paths.isEmpty
  · rw [if_pos h]
    exact hInv
  · rw [if_neg h]
    exact invariant_removeFilter s.devicePaths paths hInv

/-- C1 witness: the removal conjunct applied to the concrete state with
devices `[root/a, root/b]`, removing `root/a`. -/
theorem c1_witness :
    DeviceSetInvariant
      ((removeDevices ⟨["root/a", "root/b"], [], [], [], [], [], none, none, ""⟩
        ["root/a"]).devicePaths) :=
  c1_invariant_preservation.2.2.1
    ⟨["root/a", "root/b"], [], [], [], [], [], none, none, ""⟩ ["root/a"] (by decide)

/-- C6: with a non-empty selection, `markSelectionAsDevices` applies
the change to the Device Set immediately — without staging a pending
plan — precisely when the computed to-remove set and the
dropped-from-selection set are both empty; otherwise a pending conflict
plan is staged and the Device Set is not mutated; and
`cancelDeviceConflict` leaves the Device Set, the Merged Devices and
the Hidden Folder Set unchanged, clearing only the pending plan. -/
theorem c6_mark_and_cancel :
    (∀ s : AppState, s.selectedPaths ≠ [] →
      ((planToRemoveU s.devicePaths (planToAdd (jsDedup s.selectedPaths)) = [] ∧
          planDropped (jsDedup s.selectedPaths) = []) →
        (markSelectionAsDevices s).pendingConflict = s.pendingConflict ∧
        (markSelectionAsDevices s).devicePaths
          = addDevicesFn s.devicePaths (planToAdd (jsDedup s.selectedPaths)) ∧
        (∀ x, x ∈ (markSelectionAsDevices s).devicePaths ↔
          x ∈ s.devicePaths ∨ x ∈ planToAdd (jsDedup s.selectedPaths)) ∧
        (markSelectionAsDevices s).selectedPaths = [])
      ∧ (¬(planToRemoveU s.devicePaths (planToAdd (jsDedup s.selectedPaths)) = [] ∧
          planDropped (jsDedup s.selectedPaths) = []) →
        (markSelectionAsDevices s).devicePaths = s.devicePaths ∧
        (markSelectionAsDevices s).pendingConflict
          = some (conflictPlanOf s.devicePaths s.selectedPaths s.points) ∧
        (markSelectionAsDevices s).mergedDevices = s.mergedDevices ∧
        (markSelectionAsDevices s).hiddenFolderPaths = s.hiddenFolderPaths))
    ∧ (∀ s : AppState,
        (cancelDeviceConflict s).devicePaths = s.devicePaths ∧
        (cancelDeviceConflict s).mergedDevices = s.mergedDevices ∧
        (cancelDeviceConflict s).hiddenFolderPaths = s.hiddenFolderPaths ∧
        (cancelDeviceConflict s).pendingConflict = none) := by
  constructor
  · intro s hsel
    have h0 : ¬ s.selectedPaths.isEmpty := by
      simpa [List.isEmpty_iff] using hsel
    constructor
    · rintro ⟨hrm, hdp⟩
      have hcond : ¬(planToRemoveU s.devicePaths
            (planToAdd (jsDedup s.selectedPaths)) ≠ [] ∨
          planDropped (jsDedup s.selectedPaths) ≠ []) := by
        rintro (h | h)
        · exact h hrm
        · exact h hdp
      unfold markSelectionAsDevices
      rw [if_neg h0, if_neg hcond]
      exact ⟨rfl, rfl, fun x => mem_addDevicesFn, rfl⟩
    · intro hcond
      have hcond' : planToRemoveU s.devicePaths
            (planToAdd (jsDedup s.selectedPaths)) ≠ [] ∨
          planDropped (jsDedup s.selectedPaths) ≠ [] := by
        by_cases h1 : planToRemoveU s.devicePaths
            (planToAdd (jsDedup s.selectedPaths)) = []
        · by_cases h2 : planDropped (jsDedup s.selectedPaths) = []
          · exact absurd ⟨h1, h2⟩ hcond
          · exact Or.inr h2
        · exact Or.inl h1
      unfold markSelectionAsDevices
      rw [if_neg h0, if_pos hcond']
      exact ⟨rfl, rfl, rfl, rfl⟩
  · intro s
    exact ⟨rfl, rfl, rfl, rfl⟩

/-- C6 witness: the immediate-apply branch at the concrete state with
no devices and the selection `[root/X]`. -/
theorem c6_witness :
    (markSelectionAsDevices
      ⟨[], [], [], ["root/X"], [], [], none, none, ""⟩).pendingConflict
      = (⟨[], [], [], ["root/X"], [], [], none, none, ""⟩ : AppState).pendingConflict :=
  ((c6_mark_and_cancel.1 ⟨[], [], [], ["root/X"], [], [], none, none, ""⟩
    (by decide)).1 ⟨by decide, by decide⟩).1

/-! Helper lemmas for the export projector. -/

theorem exportIsHidden_eq (hiddenFolderPaths : List String) (pointPath : String) :
    exportIsHidden hiddenFolderPaths pointPath
      = isAtOrDownstreamOfAnyFolderPath pointPath hiddenFolderPaths := by
  unfold exportIsHidden
  by_cases h : pointPath ≠ "" ∧ hiddenFolderPaths ≠ []
  · rw [if_pos h]
  · rw [if_neg h]
    rcases not_and_or.mp h with h1 | h2
    · have hp : pointPath = "" := not_not.mp h1
      subst hp
      rfl
    · have hl : hiddenFolderPaths = [] := not_not.mp h2
      subst hl
      unfold isAtOrDownstreamOfAnyFolderPath
      by_cases hp : (toComparableSegments pointPath).isEmpty
      · rw [if_pos hp]
      · rw [if_neg hp]
        rfl

theorem computeOwnerDevice_empty_path (ds : List String) :
    computeOwnerDevice "" ds = none := by
  rw [computeOwnerDevice_eq_none_iff]
  intro d _ hq
  have hrel : getPathRelation d "" = .disjoint :=
    relOfSegs_of_empty (Or.inr rfl)
  rcases hq with h | h <;> rw [hrel] at h <;> cases h

theorem mergedNameByPath_aux :
    ∀ (mds : List MergedDevice) (p : String) (acc : Option String),
      (∀ m, acc = some m → jsTrim m = m ∧ m ≠ "") →
      ∀ n, mds.foldl (fun acc md =>
          if jsTrim md.name = "" then acc
          else if p ∈ md.memberPaths then some (jsTrim md.name) else acc) acc = some n →
        jsTrim n = n ∧ n ≠ "" := by
  intro mds
  induction mds with
  | nil =>
    intro p acc hacc n h
    exact hacc n h
  | cons md rest ih =>
    intro p acc hacc n h
    rw [List.foldl_cons] at h
    refine ih p _ ?_ n h
    intro m hm
    have hm' : (if jsTrim md.name = "" then acc
        else if p ∈ md.memberPaths then some (jsTrim md.name) else acc) = some m := hm
    by_cases h1 : jsTrim md.name = ""
    · rw [if_pos h1] at hm'
      exact hacc m hm'
    · rw [if_neg h1] at hm'
      by_cases h2 : p ∈ md.memberPaths
      · rw [if_pos h2] at hm'
        injection hm' with hm''
        exact ⟨by rw [← hm'', jsTrim_idem], by rw [← hm'']; exact h1⟩
      · rw [if_neg h2] at hm'
        exact hacc m hm'

theorem mergedNameByPath_some {mds : List MergedDevice} {p n : String}
    (h : mergedNameByPath mds p = some n) : jsTrim n = n ∧ n ≠ "" :=
  mergedNameByPath_aux mds p none (fun m hm => by cases hm) n h

theorem displayDeviceName_merged {mds : List MergedDevice}
    {overrides : List (String × String)} {p n : String}
    (h : mergedNameByPath mds p = some n) :
    displayDeviceName mds overrides p = n := by
  obtain ⟨hid, hne⟩ := mergedNameByPath_some h
  unfold displayDeviceName
  rw [h]
  show (if jsTrim n ≠ "" then jsTrim n else overrideOrLeafName overrides p) = n
  rw [if_pos (by rw [hid]; exact hne)]
  exact hid

theorem displayDeviceName_unmerged {mds : List MergedDevice}
    {overrides : List (String × String)} {p : String}
    (h : mergedNameByPath mds p = none) :
    displayDeviceName mds overrides p = overrideOrLeafName overrides p := by
  unfold displayDeviceName
  rw [h]

theorem overrideOrLeafName_override {overrides : List (String × String)} {p ov : String}
    (h : lookupRecord overrides p = some ov) (hne : jsTrim ov ≠ "") :
    overrideOrLeafName overrides p = jsTrim ov := by
  unfold overrideOrLeafName
  rw [h]
  show (if jsTrim ov ≠ "" then jsTrim ov else leafDisplayName p) = jsTrim ov
  rw [if_pos hne]

theorem overrideOrLeafName_leaf {overrides : List (String × String)} {p : String}
    (h : lookupRecord overrides p = none) :
    overrideOrLeafName overrides p = leafDisplayName p := by
  unfold overrideOrLeafName
  rw [h]

theorem overrideOrLeafName_emptyOverride {overrides : List (String × String)}
    {p ov : String} (h : lookupRecord overrides p = some ov) (he : jsTrim ov = "") :
    overrideOrLeafName overrides p = leafDisplayName p := by
  unfold overrideOrLeafName
  rw [h]
  show (if jsTrim ov ≠ "" then jsTrim ov else leafDisplayName p) = leafDisplayName p
  rw [if_neg (by rw [he]; exact fun hc => hc rfl)]

/-- C7: for every source row, if the trimmed path value falls at or
beneath a hidden folder path the emitted `device_name` is the sentinel
`"-"` regardless of the device list; otherwise it is the owner's
display name when an owner exists, and the empty string when no device
owns the path; and the display name resolves with precedence
merged-device name over manual override over decoded leaf segment
name. -/
theorem c7_export_projector (devices hidden : List String) (mds : List MergedDevice)
    (overrides : List (String × String)) (cell : String) :
    (isAtOrDownstreamOfAnyFolderPath (jsTrim cell) hidden = true →
      exportDeviceNameCell devices hidden mds overrides cell = "-")
    ∧ (isAtOrDownstreamOfAnyFolderPath (jsTrim cell) hidden = false →
        (∀ o, computeOwnerDevice (jsTrim cell) devices = some o →
          exportDeviceNameCell devices hidden mds overrides cell
            = displayDeviceName mds overrides o)
        ∧ (computeOwnerDevice (jsTrim cell) devices = none →
          exportDeviceNameCell devices hidden mds overrides cell = ""))
    ∧ (∀ p n, mergedNameByPath mds p = some n →
        displayDeviceName mds overrides p = n)
    ∧ (∀ p, mergedNameByPath mds p = none →
        (∀ ov, lookupRecord overrides p = some ov → jsTrim ov ≠ "" →
          displayDeviceName mds overrides p = jsTrim ov)
        ∧ (∀ ov, lookupRecord overrides p = some ov → jsTrim ov = "" →
          displayDeviceName mds overrides p = leafDisplayName p)
        ∧ (lookupRecord overrides p = none →
          displayDeviceName mds overrides p = leafDisplayName p)) := by
  refine ⟨?_, ?_, ?_, ?_⟩
  · intro h
    unfold exportDeviceNameCell
    rw [if_pos (by rw [exportIsHidden_eq]; exact h)]
  · intro hfalse
    have hhid : exportIsHidden hidden (jsTrim cell) = false := by
      rw [exportIsHidden_eq]
      exact hfalse
    constructor
    · intro o ho
      have hne : jsTrim cell ≠ "" := by
        intro hc
        rw [hc, computeOwnerDevice_empty_path] at ho
        cases ho
      unfold exportDeviceNameCell
      rw [if_neg (by rw [hhid]; exact Bool.false_ne_true)]
      unfold exportOwner
      rw [if_pos ⟨hhid, hne⟩, ho]
    · intro ho
      unfold exportDeviceNameCell
      rw [if_neg (by rw [hhid]; exact Bool.false_ne_true)]
      unfold exportOwner
      by_cases hne : jsTrim cell ≠ ""
      · rw [if_pos ⟨hhid, hne⟩, ho]
      · rw [if_neg (fun hc => hne hc.2)]
  · intro p n h
    exact displayDeviceName_merged h
  · intro p h
    refine ⟨?_, ?_, ?_⟩
    · intro ov hov hne
      rw [displayDeviceName_unmerged h]
      exact overrideOrLeafName_override hov hne
    · intro ov hov he
      rw [displayDeviceName_unmerged h]
      exact overrideOrLeafName_emptyOverride hov he
    · intro hov
      rw [displayDeviceName_unmerged h]
      exact overrideOrLeafName_leaf hov

/-- C7 witness: the hidden branch at a concrete row under `root/H`. -/
theorem c7_witness :
    exportDeviceNameCell ["root/a"] ["root/H"] [] [] " root/H/x " = "-" :=
  (c7_export_projector ["root/a"] ["root/H"] [] [] " root/H/x ").1 (by decide)

/-! Helper lemmas for merge uniqueness. -/

theorem mergeUnique_prune (dp : List String) {mds : List MergedDevice}
    (h : MergeUnique mds) : MergeUnique (pruneMergedDevices dp mds) := by
  unfold pruneMergedDevices MergeUnique
  apply List.Pairwise.filter
  rw [List.pairwise_map]
  refine List.Pairwise.imp ?_ h
  intro a b hab p hp
  have hp' : p ∈ a.memberPaths.filter (fun q => decide (q ∈ dp)) := hp
  intro hc
  have hc' : p ∈ b.memberPaths.filter (fun q => decide (q ∈ dp)) := hc
  exact hab p (List.mem_filter.mp hp').1 (List.mem_filter.mp hc').1

theorem mergeUnique_confirmGroups {mds : List MergedDevice} (h : MergeUnique mds)
    (memberPaths : List String) (name freshId : String) :
    MergeUnique (confirmMergeGroups mds memberPaths name freshId) := by
  unfold confirmMergeGroups MergeUnique
  rw [List.pairwise_append]
  refine ⟨List.Pairwise.filter _ h, List.pairwise_singleton _ _, ?_⟩
  intro a ha b hb
  rw [List.mem_singleton] at hb
  subst hb
  intro p hpa hpb
  have hpb' : p ∈ sortStrings (jsDedup memberPaths) := hpb
  rw [mem_sortStrings] at hpb'
  obtain ⟨_, hpred⟩ := List.mem_filter.mp ha
  rw [Bool.not_eq_true'] at hpred
  have hany : a.memberPaths.any (fun q => decide (q ∈ jsDedup memberPaths)) = true :=
    List.any_eq_true.mpr ⟨p, hpa, decide_eq_true hpb'⟩
  rw [hpred] at hany
  cases hany

theorem applyMutation_mergeConfirm_eq (s : AppState) (mem : List String)
    (name freshId : String) (hname : jsTrim name ≠ "") :
    applyMutation s (.mergeConfirm mem name freshId)
      = mergedConfirmState
          { s with pendingMerge := some ⟨mem, name⟩, mergeName := name }
          ⟨mem, name⟩ freshId := by
  show (if jsTrim name = "" then
      ({ s with pendingMerge := some ⟨mem, name⟩, mergeName := name } : AppState)
    else mergedConfirmState
      { s with pendingMerge := some ⟨mem, name⟩, mergeName := name } ⟨mem, name⟩ freshId)
    = _
  rw [if_neg hname]

theorem applyMutation_mergeConfirm_noop (s : AppState) (mem : List String)
    (name freshId : String) (hname : jsTrim name = "") :
    applyMutation s (.mergeConfirm mem name freshId)
      = { s with pendingMerge := some ⟨mem, name⟩, mergeName := name } := by
  show (if jsTrim name = "" then
      ({ s with pendingMerge := some ⟨mem, name⟩, mergeName := name } : AppState)
    else mergedConfirmState
      { s with pendingMerge := some ⟨mem, name⟩, mergeName := name } ⟨mem, name⟩ freshId)
    = _
  rw [if_pos hname]

theorem applyMutation_removeDevs_eq (s : AppState) (paths : List String) :
    applyMutation s (.removeDevs paths)
      = if paths.isEmpty then s
        else setDevicePathsWithEffects s
          (s.devicePaths.filter (fun p => decide (p ∉ paths))) := rfl

theorem mergeUnique_applyMutation (s : AppState) (op : DeviceMutation)
    (h : MergeUnique s.mergedDevices) : MergeUnique (applyMutation s op).mergedDevices := by
  cases op with
  | removeDevs paths =>
    rw [applyMutation_removeDevs_eq]
    by_cases hp : paths.isEmpty
    · rw [if_pos hp]
      exact h
    · rw [if_neg hp]
      exact mergeUnique_prune _ h
  | mergeConfirm mem name freshId =>
    by_cases hname : jsTrim name = ""
    · rw [applyMutation_mergeConfirm_noop s mem name freshId hname]
      exact h
    · rw [applyMutation_mergeConfirm_eq s mem name freshId hname]
      exact mergeUnique_prune _ (mergeUnique_confirmGroups h mem _ freshId)

theorem pruneMergedDevices_eq_self {dp : List String} {mds : List MergedDevice}
    (h : ∀ md ∈ mds, md.memberPaths ≠ [] ∧ ∀ p ∈ md.memberPaths, p ∈ dp) :
    pruneMergedDevices dp mds = mds := by
  unfold pruneMergedDevices
  have hmap : mds.map (fun md =>
      { md with memberPaths := md.memberPaths.filter (fun p => decide (p ∈ dp)) }) = mds := by
    conv_rhs => rw [← List.map_id mds]
    apply List.map_congr_left
    intro md hmd
    have hfe : md.memberPaths.filter (fun p => decide (p ∈ dp)) = md.memberPaths :=
      List.filter_eq_self.mpr (fun p hp => decide_eq_true ((h md hmd).2 p hp))
    rw [hfe]
    rfl
  rw [hmap]
  exact List.filter_eq_self.mpr (fun md hmd => decide_eq_true (h md hmd).1)

theorem pruneMergedDevices_forward {dp : List String} {mds : List MergedDevice} :
    ∀ md' ∈ pruneMergedDevices dp mds,
      md'.memberPaths ≠ [] ∧ ∀ p ∈ md'.memberPaths, p ∈ dp := by
  intro md' hmem
  unfold pruneMergedDevices at hmem
  obtain ⟨hmem', hne⟩ := List.mem_filter.mp hmem
  obtain ⟨md, hmd, heq⟩ := List.mem_map.mp hmem'
  subst heq
  refine ⟨by simpa using hne, ?_⟩
  intro p hp
  have hp' : p ∈ md.memberPaths.filter (fun q => decide (q ∈ dp)) := hp
  exact of_decide_eq_true (List.mem_filter.mp hp').2

/-- C9: merge uniqueness.  The first conjunct: starting from any state
whose merged devices are pairwise member-disjoint, every sequence of
merge confirmations and device removals preserves that property, so
every folder path belongs to at most one merged group.  The second
conjunct: a successful merge confirmation (non-empty trimmed name,
non-empty member list, well-formed groups) drops entirely every
pre-existing group sharing at least one member with the staged set and
appends the single new group.  The third conjunct: after a removal,
every remaining group is non-empty and contains only paths that are
still devices — in particular none of the removed paths. -/
theorem c9_merge_uniqueness :
    (∀ (s : AppState) (ops : List DeviceMutation), MergeUnique s.mergedDevices →
      MergeUnique ((ops.foldl applyMutation s).mergedDevices))
    ∧ (∀ (s : AppState) (memberPaths : List String) (name freshId : String),
        MergedWellFormed s → jsTrim name ≠ "" → memberPaths ≠ [] →
        (applyMutation s (.mergeConfirm memberPaths name freshId)).mergedDevices
          = s.mergedDevices.filter
              (fun md => !(md.memberPaths.any (fun p => decide (p ∈ jsDedup memberPaths))))
            ++ [⟨freshId, jsTrim name, sortStrings (jsDedup memberPaths)⟩])
    ∧ (∀ (s : AppState) (paths : List String), paths ≠ [] →
        ∀ md ∈ (applyMutation s (.removeDevs paths)).mergedDevices,
          md.memberPaths ≠ [] ∧ ∀ p ∈ md.memberPaths,
            p ∈ (applyMutation s (.removeDevs paths)).devicePaths ∧ p ∉ paths) := by
  refine ⟨?_, ?_, ?_⟩
  · intro s ops
    induction ops generalizing s with
    | nil => intro h; exact h
    | cons op rest ih =>
      intro h
      rw [List.foldl_cons]
      exact ih _ (mergeUnique_applyMutation s op h)
  · intro s memberPaths name freshId hwf hname hne
    rw [applyMutation_mergeConfirm_eq s memberPaths name freshId hname]
    show pruneMergedDevices (confirmMergeDevicePaths s.devicePaths memberPaths)
        (confirmMergeGroups s.mergedDevices memberPaths (jsTrim name) freshId) = _
    rw [pruneMergedDevices_eq_self]
    · rfl
    · intro md hmd
      unfold confirmMergeGroups at hmd
      rw [List.mem_append] at hmd
      rcases hmd with hmd | hmd
      · obtain ⟨hmd', _⟩ := List.mem_filter.mp hmd
        refine ⟨(hwf md hmd').1, ?_⟩
        intro p hp
        unfold confirmMergeDevicePaths
        rw [mem_foldl_insertUnique, mem_jsDedup]
        exact Or.inl ((hwf md hmd').2 p hp)
      · rw [List.mem_singleton] at hmd
        subst hmd
        constructor
        · show sortStrings (jsDedup memberPaths) ≠ []
          exact sortStrings_ne_nil (jsDedup_ne_nil hne)
        · intro p hp
          have hp' : p ∈ sortStrings (jsDedup memberPaths) := hp
          rw [mem_sortStrings] at hp'
          unfold confirmMergeDevicePaths
          rw [mem_foldl_insertUnique]
          exact Or.inr hp'
  · intro s paths hne md hmd
    rw [applyMutation_removeDevs_eq,
      if_neg (by simpa [List.isEmpty_iff] using hne)] at hmd
    have hfwd := pruneMergedDevices_forward md hmd
    refine ⟨hfwd.1, ?_⟩
    intro p hp
    have hp' := hfwd.2 p hp
    obtain ⟨_, hdec⟩ := List.mem_filter.mp hp'
    refine ⟨?_, of_decide_eq_true hdec⟩
    rw [applyMutation_removeDevs_eq,
      if_neg (by simpa [List.isEmpty_iff] using hne)]
    exact hp'

/-- C9 witness: the invariant-preservation conjunct applied to a
concrete two-step sequence (merge then removal) from a state with one
device and no merged groups. -/
theorem c9_witness :
    MergeUnique
      (([DeviceMutation.mergeConfirm ["root/a", "root/b"] "m" "id1",
        DeviceMutation.removeDevs ["root/a"]].foldl applyMutation
        ⟨["root/a"], [], [], [], [], [], none, none, ""⟩).mergedDevices) :=
  c9_merge_uniqueness.1 ⟨["root/a"], [], [], [], [], [], none, none, ""⟩
    [DeviceMutation.mergeConfirm ["root/a", "root/b"] "m" "id1",
      DeviceMutation.removeDevs ["root/a"]] (by decide)

end DeviceClassifier
